import Mathlib

/-!
Verification of the rung stacked-branch tool against its specification.

The development shallowly embeds the TypeScript sources of the VS Code
extension (`src/vscode-extension/src/*.ts`, plus the unnamed parts holding
`RungCli` and the earlier `StatusBarProvider`) and, where the rebase engine
itself is not part of the sources, models the engine's operations from the
specification text (such definitions carry a doc comment starting with
`Modelled from the spec:`).
-/

namespace Rung

/-! ## Types (src/vscode-extension/src/types.ts) -/

/-- `ErrorType` enum from types.ts. -/
inductive ErrorType
  | notInitialized
  | notGitRepo
  | cliNotFound
  | syncInProgress
  | conflictDetected
  | unknown
deriving DecidableEq, Repr

/-- `RungError` interface from types.ts. -/
structure RungError where
  type : ErrorType
  message : String
  details : Option String
deriving DecidableEq, Repr

/-- `BranchState` union from types.ts (internally tagged by `status`). -/
inductive BranchState
  | synced
  | diverged (commits_behind : Nat)
  | conflict (files : List String)
  | detached
deriving DecidableEq, Repr

/-- `BranchInfo` interface from types.ts; optional fields become `Option`. -/
structure BranchInfo where
  name : String
  parent : Option String
  state : BranchState
  pr : Option Nat
  is_current : Option Bool
deriving DecidableEq, Repr

/-- `StatusOutput` interface from types.ts. -/
structure StatusOutput where
  branches : List BranchInfo
  current : Option String
deriving DecidableEq, Repr

/-- A JavaScript exception value: either a structural `RungError` (an object
with `type` and `message` fields, as tested by `isRungError`) or any other
thrown value. -/
inductive JsError
  | rung (e : RungError)
  | other (message : String)
deriving DecidableEq, Repr

/-- `isRungError` type guard from types.ts. -/
def isRungError : JsError → Bool
  | .rung _ => true
  | .other _ => false

/-- The `type` field of a thrown value, when it is a `RungError`. -/
def JsError.errType : JsError → Option ErrorType
  | .rung e => some e.type
  | .other _ => none

/-! ## String containment (JavaScript `String.prototype.includes`) -/

/-- `leadsWith p s` holds when the char list `p` is an initial segment of `s`. -/
def leadsWith : List Char → List Char → Bool
  | [], _ => true
  | _ :: _, [] => false
  | p :: ps, c :: cs => p == c && leadsWith ps cs

/-- `occursIn p s`: the char list `p` occurs contiguously inside `s`. -/
def occursIn (p : List Char) : List Char → Bool
  | [] => leadsWith p []
  | c :: cs => leadsWith p (c :: cs) || occursIn p cs

/-- JavaScript `message.includes(pat)`. -/
def containsStr (s pat : String) : Bool := occursIn pat.toList s.toList

/-! ## RungCli (src/unnamed/part_000, class RungCli) -/

/-- The caught `exec` failure object in `RungCli.execute`'s catch clause:
`{ code?: string | number; stderr?: string; message?: string }`. -/
structure ExecError where
  code : Option (String ⊕ Int)
  stderr : Option String
  message : Option String
deriving DecidableEq

/-- `RungCli.createError`. -/
def createError (type : ErrorType) (message : String) (details : Option String) :
    RungError :=
  { type := type, message := message, details := details }

/-- The message `RungCli.parseError` matches against:
`error.stderr ?? error.message ?? "Unknown error"`. -/
def ExecError.msg (e : ExecError) : String :=
  e.stderr.getD (e.message.getD "Unknown error")

/-- `RungCli.parseError` (part_000 lines 90-135): classify a CLI failure by
substring patterns, in source order.  `cliPath` is `this.config.cliPath`. -/
def parseError (cliPath : String) (e : ExecError) : RungError :=
  let message := e.msg
  if containsStr message "rung init" || containsStr message "not initialized" then
    createError .notInitialized
      "Rung is not initialized in this repository. Run 'rung init' first." none
  else if containsStr message "not inside a git repository" then
    createError .notGitRepo "Not inside a Git repository" none
  else if containsStr message "Sync already in progress" then
    createError .syncInProgress
      "A sync operation is already in progress. Use --continue or --abort." none
  else if containsStr message "Conflict" || containsStr message "conflict" ||
      containsStr message "CONFLICT" then
    createError .conflictDetected
      "Conflicts detected during sync. Resolve them and run 'rung sync --continue'."
      (some message)
  else if e.code == some (Sum.inl "ENOENT") then
    createError .cliNotFound
      ("rung CLI not found at '" ++ cliPath ++
        "'. Install rung or update the rung.cliPath setting.")
      none
  else
    createError .unknown message none

/-! ## JSON values and `RungCli.status` (part_000 lines 150-161)

`JSON.parse` is a JavaScript runtime primitive; the embedding takes its
result as an input: `none` models a parse failure (invalid JSON), `some j`
models a successful parse yielding the value `j`. -/

/-- JSON values (numbers restricted to integers, which covers every numeric
field of the status schema). -/
inductive Json
  | null
  | bool (b : Bool)
  | num (n : Int)
  | str (s : String)
  | arr (items : List Json)
  | obj (fields : List (String × Json))

/-- Field lookup in a JSON object (first binding wins). -/
def lookupField (fields : List (String × Json)) (k : String) : Option Json :=
  (fields.find? (fun p => p.1 == k)).map (fun p => p.2)

/-- `RungCli.status`: run `status --json`, `JSON.parse` the stdout, and on a
parse failure throw `Unknown` with message "Failed to parse status output"
and the raw stdout as details.  No schema validation is performed. -/
def RungCli.status (stdout : String) (parsed : Option Json) : Except RungError Json :=
  match parsed with
  | some j => Except.ok j
  | none => Except.error (createError .unknown "Failed to parse status output" (some stdout))

/-- `RungCli.isInitialized` (part_000 lines 248-259), as a function of the
outcome of the `this.status()` call it wraps. -/
def RungCli.isInitialized (statusResult : Except JsError StatusOutput) :
    Except JsError Bool :=
  match statusResult with
  | .ok _ => Except.ok true
  | .error e =>
      if isRungError e && (e.errType == some ErrorType.notInitialized) then
        Except.ok false
      else
        Except.error e

/-! ## syncCommand (src/vscode-extension/src/commands/sync.ts lines 9-58) -/

/-- The user's pick from a `showWarningMessage` prompt: first button, second
button, or dismissal. -/
inductive UserChoice
  | first
  | second
  | dismissed
deriving DecidableEq

/-- Observable outcome of one `syncCommand` invocation: the error it
rethrows (if any), the buttons it offered, and whether it invoked the
continue / abort subcommands. -/
structure SyncCmdOutcome where
  rethrown : Option JsError
  offeredChoices : List String
  ranContinue : Bool
  ranAbort : Bool
deriving DecidableEq

/-- `syncCommand`: `syncResult` is the outcome of the `cli.sync()` call,
`choice` the user's pick from whichever warning prompt is shown. -/
def syncCommand (syncResult : Except JsError Unit) (choice : UserChoice) :
    SyncCmdOutcome :=
  match syncResult with
  | .ok _ =>
      { rethrown := none, offeredChoices := [], ranContinue := false, ranAbort := false }
  | .error e =>
      if isRungError e && (e.errType == some ErrorType.conflictDetected) then
        { rethrown := none
          offeredChoices := ["Continue after resolving", "Abort sync"]
          ranContinue := false
          ranAbort := choice == UserChoice.second }
      else if isRungError e && (e.errType == some ErrorType.syncInProgress) then
        { rethrown := none
          offeredChoices := ["Continue", "Abort"]
          ranContinue := choice == UserChoice.first
          ranAbort := choice == UserChoice.second }
      else
        { rethrown := some e, offeredChoices := [], ranContinue := false, ranAbort := false }

/-! ## StatusOutput schema conformance (types.ts shapes, as JSON) -/

/-- Does a JSON value conform to the `BranchState` union of types.ts: an
object with a `status` field equal to one of the four tags, a numeric
`commits_behind` when diverged, a string array `files` when in conflict. -/
def conformsBranchState (j : Json) : Bool :=
  match j with
  | .obj fs =>
      match lookupField fs "status" with
      | some (.str "synced") => true
      | some (.str "diverged") =>
          (match lookupField fs "commits_behind" with
            | some (.num _) => true
            | _ => false)
      | some (.str "conflict") =>
          (match lookupField fs "files" with
            | some (.arr l) => l.all (fun x => match x with | .str _ => true | _ => false)
            | _ => false)
      | some (.str "detached") => true
      | _ => false
  | _ => false

/-- Does a JSON value conform to the `BranchInfo` interface of types.ts. -/
def conformsBranchInfo (j : Json) : Bool :=
  match j with
  | .obj fs =>
      (match lookupField fs "name" with | some (.str _) => true | _ => false) &&
      (match lookupField fs "parent" with
        | some (.str _) => true | some .null => true | _ => false) &&
      (match lookupField fs "state" with
        | some s => conformsBranchState s | none => false) &&
      (match lookupField fs "pr" with
        | none => true | some (.num _) => true | _ => false) &&
      (match lookupField fs "is_current" with
        | none => true | some (.bool _) => true | _ => false)
  | _ => false

/-- Does a JSON value conform to the `StatusOutput` interface of types.ts. -/
def conformsStatusOutput (j : Json) : Bool :=
  match j with
  | .obj fs =>
      (match lookupField fs "branches" with
        | some (.arr l) => l.all conformsBranchInfo
        | _ => false) &&
      (match lookupField fs "current" with
        | some (.str _) => true | some .null => true | _ => false)
  | _ => false

/-- Serialization of a `BranchState` in the internally-tagged shape declared
by types.ts. -/
def BranchState.toJson : BranchState → Json
  | .synced => .obj [("status", .str "synced")]
  | .diverged n => .obj [("status", .str "diverged"), ("commits_behind", .num n)]
  | .conflict files =>
      .obj [("status", .str "conflict"), ("files", .arr (files.map Json.str))]
  | .detached => .obj [("status", .str "detached")]

/-- Serialization of a `BranchInfo` in the shape declared by types.ts
(optional fields omitted when absent). -/
def BranchInfo.toJson (b : BranchInfo) : Json :=
  .obj ([("name", .str b.name),
         ("parent", match b.parent with | some p => .str p | none => .null),
         ("state", b.state.toJson)]
    ++ (match b.pr with | some n => [("pr", Json.num n)] | none => [])
    ++ (match b.is_current with | some v => [("is_current", Json.bool v)] | none => []))

/-- Serialization of a `StatusOutput` in the shape declared by types.ts. -/
def StatusOutput.toJson (s : StatusOutput) : Json :=
  .obj [("branches", .arr (s.branches.map BranchInfo.toJson)),
        ("current", match s.current with | some c => .str c | none => .null)]

/-- The `rung status --json` output documented in the repository's own CLI
docs (site docs, status page): branch `state` is encoded externally tagged
(`"state": "synced"`, `"state": {"diverged": {"commits_behind": 2}}`),
not in the internally-tagged shape declared by types.ts. -/
def docsStatusJson : Json :=
  .obj [("branches", .arr
      [ .obj [("name", .str "feat-add-user-model"),
              ("parent", .str "main"),
              ("state", .str "synced"),
              ("pr", .num 41),
              ("is_current", .bool false)],
        .obj [("name", .str "feat-add-user-api"),
              ("parent", .str "feat-add-user-model"),
              ("state", .obj [("diverged", .obj [("commits_behind", .num 2)])]),
              ("pr", .num 42),
              ("is_current", .bool true)] ]),
    ("current", .str "feat-add-user-api")]

/-! ## Stack Model parent graph (spec-modelled)

The rebase engine (Stack Model, §4.1 of the spec) is not part of the
sources; only its CLI wrapper and documentation are.  The definitions below
are modelled from the spec. -/

/-- Modelled from the spec: the Stack Model's persisted branch parent
graph, an insertion-ordered mapping from branch name to parent name
(`none` meaning root/base).  The engine's Stack Model is missing from the
sources. -/
abbrev ParentGraph := List (String × Option String)

/-- The recorded parent entry of a branch, if the branch is in the stack. -/
def lookupParent (g : ParentGraph) (n : String) : Option (Option String) :=
  (g.find? (fun p => p.1 == n)).map (fun p => p.2)

/-- One step up the parent graph: the parent name of `n`, when `n` is a
stack branch with a non-null parent. -/
def parentLink (g : ParentGraph) (n : String) : Option String :=
  (lookupParent g n).bind id

/-- `k`-fold iteration of `parentLink`: `some a` when walking exactly `k`
parent pointers from `n` stays defined and lands on `a`. -/
def parentIter (g : ParentGraph) : Nat → String → Option String
  | 0, n => some n
  | k + 1, n =>
      match parentLink g n with
      | some p => parentIter g k p
      | none => none

/-- Modelled from the spec: the §4.1 cycle-check walk — follow parent
pointers from a branch toward the root, collecting visited names, with a
visited-set guard; a repeated visit stops the walk and flags the graph as
corrupt instead of looping.  Fuel-indexed; `ancestorWalk` supplies enough
fuel that it never runs out. -/
def walkVisit (g : ParentGraph) : Nat → List String → String → List String × Bool
  | 0, visited, _ => (visited, true)
  | fuel + 1, visited, cur =>
      if cur ∈ visited then (visited, true)
      else
        match parentLink g cur with
        | some p => walkVisit g fuel (cur :: visited) p
        | none => (cur :: visited, false)

/-- The §4.1 ancestry walk from `b` toward the root: visited names
(including `b` itself) and a corrupt-graph flag. -/
def ancestorWalk (g : ParentGraph) (b : String) : List String × Bool :=
  walkVisit g (g.length + 1) [] b

/-- Topology / state errors of the Stack Model (spec §7). -/
inductive StackError
  | cyclicDependency
  | corruptState
deriving DecidableEq, Repr

/-- Modelled from the spec: `reparent(name, newParent)` — walk parent
pointers from `newParent` to the root; fail with `CyclicDependency` when
`name` occurs in the walk, with a corrupt-state error when the walk hits a
repeated visit, and otherwise update `name`'s parent entry. -/
def reparent (g : ParentGraph) (name newParent : String) :
    Except StackError ParentGraph :=
  let w := ancestorWalk g newParent
  if name ∈ w.1 then .error .cyclicDependency
  else if w.2 then .error .corruptState
  else .ok (g.map (fun p => if p.1 == name then (p.1, some newParent) else p))

/-! ## Sync executor state machine (spec-modelled)

The Sync Planner & Executor and the Backup/Undo Ledger (spec §4.2, §4.3)
are part of the rung binary, which is not in the sources. -/

/-- Modelled from the spec: the transient `SyncState` record — backup id,
completed and remaining branch sequences, and the paused-at marker. -/
structure SyncState where
  backupId : Nat
  completed : List String
  remaining : List String
  pausedAt : Option String

/-- Modelled from the spec: the engine-visible state — every branch's
current tip (commit identifiers as numbers), the backup ledger (backup id
to recorded branch tips), and the optional in-progress `SyncState`. -/
structure EngineState where
  tips : String → Nat
  backups : List (Nat × List (String × Nat))
  syncState : Option SyncState
  nextBackupId : Nat

/-- Modelled from the spec: `createBackup(branches)` — record the current
tip of each listed branch before any ref is rewritten; ids are monotonic. -/
def createBackup (s : EngineState) (branches : List String) : EngineState × Nat :=
  ({ s with
      backups :=
        (s.nextBackupId, branches.map (fun b => (b, s.tips b))) :: s.backups,
      nextBackupId := s.nextBackupId + 1 },
   s.nextBackupId)

/-- Modelled from the spec: beginning a sync — create a Backup covering
every branch in the plan before executing the first action, then create
the `SyncState` with the whole plan pending. -/
def beginSync (s : EngineState) (plan : List String) : EngineState :=
  let p := createBackup s plan
  { p.1 with syncState := some ⟨p.2, [], plan, none⟩ }

/-- Point update of a tip assignment (a ref write). -/
def setTip (t : String → Nat) (b : String) (v : Nat) : String → Nat :=
  fun n => if n = b then v else t n

/-- Modelled from the spec: one clean rewrite action — rewrite the next
pending branch of the plan to its rebased tip and mark it completed. -/
def runStep (s : EngineState) (newTip : Nat) : EngineState :=
  match s.syncState with
  | some ss =>
      match ss.remaining with
      | b :: rest =>
          { s with
              tips := setTip s.tips b newTip,
              syncState :=
                some { ss with completed := ss.completed ++ [b], remaining := rest } }
      | [] => s
  | none => s

/-- Run a prefix of the plan: one clean rewrite per listed new tip (a
partially-completed sync stops after any number of these). -/
def runSteps (s : EngineState) (newTips : List Nat) : EngineState :=
  newTips.foldl runStep s

/-- State errors of the executor (spec §7). -/
inductive EngineError
  | noBackupFound
deriving DecidableEq, Repr

/-- Reset every branch recorded in a backup to its saved tip. -/
def restoreTips (t : String → Nat) (saved : List (String × Nat)) : String → Nat :=
  saved.foldl (fun acc p => setTip acc p.1 p.2) t

/-- Find a backup by id in the ledger. -/
def lookupBackup (s : EngineState) (id : Nat) : Option (List (String × Nat)) :=
  (s.backups.find? (fun p => p.1 == id)).map (fun p => p.2)

/-- Modelled from the spec: `abort()` — requires an existing `SyncState`;
restores the Backup referenced by `backupId`, deletes both the backup and
the `SyncState`.  Without a `SyncState` it fails with a
NoBackupFound-style error and performs no action. -/
def abort (s : EngineState) : Except EngineError EngineState :=
  match s.syncState with
  | none => .error .noBackupFound
  | some ss =>
      let saved := (lookupBackup s ss.backupId).getD []
      .ok { s with
              tips := restoreTips s.tips saved,
              backups := s.backups.filter (fun p => !(p.1 == ss.backupId)),
              syncState := none }

/-! ## Sync rewrite-plan execution (spec-modelled) -/

/-- Modelled from the spec: a Branch of the Stack data model, with commit
identifiers as linear histories — a rebase yields a fresh commit on top of
the new base, so "is an ancestor of" is the list-suffix relation. -/
structure MBranch where
  name : String
  parent : Option String
  tip : List Nat
  lastKnownParentTip : Option (List Nat)
deriving DecidableEq, Repr

/-- Modelled from the spec: the sync executor's view of the repository —
the base branch's current tip plus the stack's branches. -/
structure SyncEnv where
  base : List Nat
  branches : List MBranch
deriving DecidableEq, Repr

/-- Branch lookup by name (first match). -/
def lookupBranch (env : SyncEnv) (n : String) : Option MBranch :=
  env.branches.find? (fun b => b.name == n)

/-- The current tip of a branch's parent: the base branch's tip for root
branches, the named stack branch's tip otherwise. -/
def parentTip (env : SyncEnv) (b : MBranch) : Option (List Nat) :=
  match b.parent with
  | none => some env.base
  | some p => (lookupBranch env p).map (fun c => c.tip)

/-- Modelled from the spec: the Repository Adapter's rebase-onto primitive
in the linear-history model — replaying a branch onto a new base yields a
fresh commit (`fresh`) whose history extends the new base's. -/
def rebaseOnto (newBase : List Nat) (fresh : Nat) : List Nat :=
  fresh :: newBase

/-- The per-branch update performed by one rewrite action targeting `n`:
set the tip to the rebased history and record the parent tip rebased onto. -/
def actionFn (n : String) (pt : List Nat) (fresh : Nat) (c : MBranch) : MBranch :=
  if c.name == n then
    { c with tip := rebaseOnto pt fresh, lastKnownParentTip := some pt }
  else c

/-- Modelled from the spec: one rewrite action of the plan — rebase the
named branch onto its parent's *current* tip and update `tip` and
`lastKnownParentTip` (§4.3 step 5(a)). -/
def execAction (env : SyncEnv) (fresh : Nat) (n : String) : SyncEnv :=
  match lookupBranch env n with
  | none => env
  | some b =>
      match parentTip env b with
      | none => env
      | some pt => { env with branches := env.branches.map (actionFn n pt fresh) }

/-- Modelled from the spec: execute the plan's rewrite actions in order
(bottom-up), drawing fresh commit ids from a counter. -/
def execPlan (env : SyncEnv) : List String → Nat → SyncEnv
  | [], _ => env
  | n :: rest, fresh => execPlan (execAction env fresh n) rest (fresh + 1)

/-- The parent entry recorded for a branch name, when the branch exists. -/
def parentOf (env : SyncEnv) (n : String) : Option (Option String) :=
  (lookupBranch env n).map (fun b => b.parent)

/-- Decidable well-formedness of a plan against an environment: every plan
entry names an existing branch whose non-null parent also exists. -/
def planResolvesOk (env : SyncEnv) (plan : List String) : Bool :=
  plan.all (fun n =>
    match lookupBranch env n with
    | some b =>
        (match b.parent with
          | some p => (lookupBranch env p).isSome
          | none => true)
    | none => false)

/-- Decidable bottom-up ordering of a plan: no entry's parent is that entry
itself or a later entry — i.e. a branch is only rewritten after its
parent's rewrite (if any) has completed. -/
def planOrderOk (env : SyncEnv) : List String → Bool
  | [] => true
  | n :: rest =>
      (match parentOf env n with
        | some (some p) => !(decide (p ∈ n :: rest))
        | _ => true) && planOrderOk env rest

/-- A two-branch demonstration stack (A on the base, B on A) used to
instantiate the sync postcondition at concrete inputs. -/
def c4DemoEnv : SyncEnv :=
  ⟨[0], [⟨"A", none, [5], some [0]⟩, ⟨"B", some "A", [6], none⟩]⟩

/-! ## Stack tree ladder (stackTreeProvider.ts, buildLadder) -/

/-- Tree items produced by `buildLadder`: branch rows plus the optional
base-branch indicator (messages/init items never occur inside buildLadder). -/
inductive LadderItem
  | branchItem (b : BranchInfo)
  | baseItem (name : String)
deriving DecidableEq, Repr

/-- The `childrenMap` entry for a branch name: branches whose `parent`
field names it, in input order. -/
def childrenOf (bs : List BranchInfo) (n : String) : List BranchInfo :=
  bs.filter (fun c => c.parent == some n)

/-- The `roots` filter of buildLadder: `!b.parent || !stackNames.has(b.parent)`
with JavaScript truthiness (a null or empty-string parent is falsy). -/
def isRoot (stackNames : List String) (b : BranchInfo) : Bool :=
  match b.parent with
  | none => true
  | some p => (p == "") || !(stackNames.contains p)

/-- The DFS state of buildLadder: visited names, ordered output. -/
abbrev LadderSt := List String × List BranchInfo

/-- The recursive `visit` of buildLadder — mark the branch visited, visit
its children first, then append the branch itself.  Fuel stands in for the
unbounded JavaScript recursion; `buildLadder` supplies
`branches.length + 1`, which the visited-set guard keeps from running out. -/
def visit (bs : List BranchInfo) : Nat → LadderSt → BranchInfo → LadderSt
  | 0, st, _ => st
  | fuel + 1, st, b =>
      if b.name ∈ st.1 then st
      else
        let st2 := (childrenOf bs b.name).foldl (visit bs fuel) (b.name :: st.1, st.2)
        (st2.1, st2.2 ++ [b])

/-- Root branches of the status, in input order. -/
def ladderRoots (bs : List BranchInfo) : List BranchInfo :=
  bs.filter (isRoot (bs.map (fun b => b.name)))

/-- The branch ordering produced by buildLadder's DFS at a given fuel. -/
def ladderOrderedF (fuel : Nat) (bs : List BranchInfo) : List BranchInfo :=
  ((ladderRoots bs).foldl (visit bs fuel) ([], [])).2

/-- `StackTreeProvider.buildLadder` at a given recursion fuel: branch rows
(tip first, roots last) followed by the base indicator when the first
root's parent is truthy. -/
def buildLadderF (fuel : Nat) (status : StatusOutput) : List LadderItem :=
  let items := (ladderOrderedF fuel status.branches).map LadderItem.branchItem
  match (ladderRoots status.branches).head? with
  | some r =>
      match r.parent with
      | some p => if p == "" then items else items ++ [LadderItem.baseItem p]
      | none => items
  | none => items

/-- `StackTreeProvider.buildLadder` with the always-sufficient fuel. -/
def buildLadder (status : StatusOutput) : List LadderItem :=
  buildLadderF (status.branches.length + 1) status

/-! ## part_001 StatusBarProvider.getStackPosition (no cycle guard) -/

/-- The `while` loop of the part_001 `StatusBarProvider.getStackPosition`
(which has no visited-set guard), fueled: `none` means the loop is still
running when the fuel runs out.  A null or empty (JavaScript-falsy) parent,
or a parent outside the stack, exits the loop. -/
def posLoop (branches : List BranchInfo) (stackNames : List String) :
    Nat → Nat → Option BranchInfo → Option Nat
  | 0, _, _ => none
  | fuel + 1, depth, branch =>
      match branch with
      | none => some depth
      | some b =>
          match b.parent with
          | none => some depth
          | some p =>
              if p == "" then some depth
              else if stackNames.contains p then
                posLoop branches stackNames fuel (depth + 1)
                  (branches.find? (fun c => c.name == p))
              else some depth

/-- part_001 `getStackPosition` for the current branch: 1-indexed depth and
total = branches.length — when the loop finishes within the given bound. -/
def getStackPosition (status : StatusOutput) (current : BranchInfo) (fuel : Nat) :
    Option (Nat × Nat) :=
  (posLoop status.branches (status.branches.map (fun b => b.name)) fuel 1
      (some current)).map (fun d => (d, status.branches.length))

/-- Corrupt input: branch A's parent is B. -/
def cycBranchA : BranchInfo := ⟨"A", some "B", .synced, none, some true⟩

/-- Corrupt input: branch B's parent is A. -/
def cycBranchB : BranchInfo := ⟨"B", some "A", .synced, none, none⟩

/-- The corrupt two-branch status whose parent pointers form a cycle. -/
def cycStatus : StatusOutput := ⟨[cycBranchA, cycBranchB], some "A"⟩

/-- The parent graph underlying a status's branch list. -/
def toGraph (bs : List BranchInfo) : ParentGraph :=
  bs.map (fun b => (b.name, b.parent))

/-- Decidable acyclicity of the parent pointers: walking parent pointers
from any branch leaves the stack within `branches.length + 1` steps. -/
def acyclicCheck (bs : List BranchInfo) : Bool :=
  bs.all (fun b => (List.range (bs.length + 2)).any
    (fun k => (parentIter (toGraph bs) k b.name).isNone))

/-- The branch ordering of buildLadder at the always-sufficient fuel. -/
def ladderOrdered (bs : List BranchInfo) : List BranchInfo :=
  ladderOrderedF (bs.length + 1) bs

/-- The full DFS state after buildLadder's root loop. -/
def ladderState (bs : List BranchInfo) : LadderSt :=
  (ladderRoots bs).foldl (visit bs (bs.length + 1)) ([], [])

/-- A status with two identical branch records (duplicate names). -/
def dupStatus : StatusOutput :=
  ⟨[⟨"X", none, .synced, none, none⟩, ⟨"X", none, .synced, none, none⟩], none⟩

/-- A status whose sole (root) branch has the empty string as parent —
non-null, but JavaScript-falsy. -/
def emptyParentStatus : StatusOutput :=
  ⟨[⟨"X", some "", .synced, none, none⟩], none⟩

/-- Number of stack-branch names not yet visited. -/
def unvisitedCount (bs : List BranchInfo) (V : List String) : Nat :=
  ((bs.map (fun b => b.name)).filter (fun x => !(decide (x ∈ V)))).length

/-- The effect of a completed DFS call on the state: the output grows by a
block of stack branches whose names are fresh, mutually distinct, and are
exactly the names added to the visited set. -/
def StRel (bs : List BranchInfo) (s s' : LadderSt) : Prop :=
  ∃ Δ : List BranchInfo, s'.2 = s.2 ++ Δ
    ∧ (∀ x, x ∈ s'.1 ↔ x ∈ s.1 ∨ x ∈ Δ.map (fun b => b.name))
    ∧ (∀ x, x ∈ Δ.map (fun b => b.name) → x ∉ s.1)
    ∧ (Δ.map (fun b => b.name)).Nodup
    ∧ (∀ b, b ∈ Δ → b ∈ bs)

/-- The chain of DFS-active ancestors above a node: consecutive parent
links within the stack. -/
def ActiveChain (bs : List BranchInfo) : BranchInfo → List BranchInfo → Prop
  | _, [] => True
  | b, a :: A => b.parent = some a.name ∧ a ∈ bs ∧ ActiveChain bs a A

/-- Every entry in the list is preceded by all of its stack children. -/
def ChildClosedList (bs : List BranchInfo) (o : List BranchInfo) : Prop :=
  ∀ o1 p o2, o = o1 ++ p :: o2 → ∀ c, c ∈ childrenOf bs p.name →
    c.name ∈ o1.map (fun x => x.name)

/-- A well-formed two-branch status (feat-1 on main, feat-2 on feat-1)
used to instantiate the ladder properties at concrete inputs. -/
def c8DemoStatus : StatusOutput :=
  ⟨[⟨"feat-1", some "main", .synced, none, none⟩,
    ⟨"feat-2", some "feat-1", .diverged 2, some 42, some true⟩], some "feat-2"⟩

/-! ## Schema conformance of serialized StatusOutput values -/

theorem conformsBranchState_toJson (st : BranchState) :
    conformsBranchState st.toJson = true := by
  cases st with
  | synced => rfl
  | diverged n => rfl
  | conflict files =>
      simp only [BranchState.toJson, conformsBranchState, lookupField]
      simp [List.all_eq_true]
  | detached => rfl

theorem conformsBranchInfo_toJson (b : BranchInfo) :
    conformsBranchInfo b.toJson = true := by
  obtain ⟨nm, par, st, pr, cur⟩ := b
  cases par <;> cases pr <;> cases cur <;>
    simp [BranchInfo.toJson, conformsBranchInfo, lookupField,
      conformsBranchState_toJson]

theorem conformsStatusOutput_toJson (s : StatusOutput) :
    conformsStatusOutput s.toJson = true := by
  obtain ⟨branches, cur⟩ := s
  cases cur <;>
    simp [StatusOutput.toJson, conformsStatusOutput, lookupField,
      List.all_eq_true, conformsBranchInfo_toJson]

/-! ## Parent-walk lemmas -/

theorem parentIter_add (g : ParentGraph) (m n : Nat) (x : String) :
    parentIter g (m + n) x = (parentIter g m x).bind (parentIter g n) := by
  induction m generalizing x with
  | zero => simp [parentIter]
  | succ m ih =>
      rw [Nat.succ_add]
      simp only [parentIter]
      cases parentLink g x with
      | some p => simpa using ih p
      | none => simp

theorem parentIter_isSome_of_le (g : ParentGraph) {k i : Nat} {x a : String}
    (h : parentIter g k x = some a) (hle : i ≤ k) :
    ∃ c, parentIter g i x = some c := by
  obtain ⟨t, rfl⟩ := Nat.exists_eq_add_of_le hle
  rw [parentIter_add] at h
  cases hc : parentIter g i x with
  | some c => exact ⟨c, rfl⟩
  | none => rw [hc] at h; simp at h

theorem parentIter_mul_loop (g : ParentGraph) {p : Nat} {n : String}
    (h : parentIter g p n = some n) (q : Nat) :
    parentIter g (q * p) n = some n := by
  induction q with
  | zero => simp [parentIter]
  | succ q ih =>
      have hq : (q + 1) * p = q * p + p := by ring
      rw [hq, parentIter_add, ih]
      simpa using h

theorem parentIter_ne_none_of_loop (g : ParentGraph) {p : Nat} {n : String}
    (hp : 1 ≤ p) (h : parentIter g p n = some n) (m : Nat) :
    parentIter g m n ≠ none := by
  intro hm
  have h1 : parentIter g (m * p) n = some n := parentIter_mul_loop g h m
  have h2 : m ≤ m * p := Nat.le_mul_of_pos_right m hp
  obtain ⟨t, ht⟩ := Nat.exists_eq_add_of_le h2
  rw [ht, parentIter_add, hm] at h1
  simp at h1

theorem walkVisit_subset (g : ParentGraph) :
    ∀ (fuel : Nat) (V : List String) (cur x : String),
      x ∈ V → x ∈ (walkVisit g fuel V cur).1 := by
  intro fuel
  induction fuel with
  | zero => intro V cur x hx; simpa [walkVisit] using hx
  | succ fuel ih =>
      intro V cur x hx
      simp only [walkVisit]
      by_cases hc : cur ∈ V
      · rw [if_pos hc]; exact hx
      · rw [if_neg hc]
        cases hl : parentLink g cur with
        | some p => exact ih (cur :: V) p x (List.mem_cons_of_mem _ hx)
        | none => exact List.mem_cons_of_mem _ hx

theorem walkVisit_mem_reach (g : ParentGraph) :
    ∀ (fuel : Nat) (V : List String) (cur x : String),
      x ∈ (walkVisit g fuel V cur).1 →
      x ∈ V ∨ ∃ k, parentIter g k cur = some x := by
  intro fuel
  induction fuel with
  | zero => intro V cur x hx; exact Or.inl (by simpa [walkVisit] using hx)
  | succ fuel ih =>
      intro V cur x hx
      simp only [walkVisit] at hx
      by_cases hc : cur ∈ V
      · rw [if_pos hc] at hx; exact Or.inl hx
      · rw [if_neg hc] at hx
        cases hl : parentLink g cur with
        | some p =>
            rw [hl] at hx
            rcases ih (cur :: V) p x hx with hv | ⟨k, hk⟩
            · rcases List.mem_cons.mp hv with rfl | hv2
              · exact Or.inr ⟨0, rfl⟩
              · exact Or.inl hv2
            · exact Or.inr ⟨k + 1, by simp [parentIter, hl, hk]⟩
        | none =>
            rw [hl] at hx
            rcases List.mem_cons.mp hx with rfl | hv2
            · exact Or.inr ⟨0, rfl⟩
            · exact Or.inl hv2

theorem parentLink_mem_keys (g : ParentGraph) {n p : String}
    (h : parentLink g n = some p) : n ∈ g.map Prod.fst := by
  unfold parentLink lookupParent at h
  cases hf : g.find? (fun q => q.1 == n) with
  | none => rw [hf] at h; simp at h
  | some q =>
      have hq := List.find?_some hf
      have hmem : q ∈ g := List.mem_of_find?_eq_some hf
      have hqn : q.1 = n := by simpa using hq
      exact hqn ▸ List.mem_map_of_mem Prod.fst hmem

theorem walk_follow (g : ParentGraph) {b a : String} {k : Nat}
    (hk : parentIter g k b = some a)
    (hinj : ∀ i j, i ≤ k → j ≤ k → parentIter g i b = parentIter g j b → i = j) :
    ∀ (fuel m : Nat) (V : List String), m ≤ k → k - m < fuel →
      (∀ i, m ≤ i → i ≤ k → ∀ c, parentIter g i b = some c → c ∉ V) →
      ∀ cm, parentIter g m b = some cm → a ∈ (walkVisit g fuel V cm).1 := by
  intro fuel
  induction fuel with
  | zero => intro m V hm hfuel; omega
  | succ fuel ih =>
      intro m V hm hfuel hV cm hcm
      have hnotin : cm ∉ V := hV m le_rfl hm cm hcm
      simp only [walkVisit]
      rw [if_neg hnotin]
      by_cases hmk : m = k
      · subst hmk
        have hcma : cm = a := by rw [hcm] at hk; exact (Option.some.injEq _ _).mp hk
        subst hcma
        cases hl : parentLink g cm with
        | some p =>
            exact walkVisit_subset g fuel (cm :: V) p cm (List.mem_cons_self cm V)
        | none => exact List.mem_cons_self cm V
      · have hmlt : m < k := lt_of_le_of_ne hm hmk
        obtain ⟨c', hc'⟩ := parentIter_isSome_of_le g hk hmlt
        have h1 : parentIter g 1 cm = some c' := by
          have hadd := parentIter_add g m 1 b
          rw [hcm] at hadd
          simp only [Option.some_bind] at hadd
          rw [← hadd]
          exact hc'
        have hlink : parentLink g cm = some c' := by
          simp only [parentIter] at h1
          cases hl : parentLink g cm with
          | some p => rw [hl] at h1; simp only [parentIter] at h1; exact h1 ▸ rfl
          | none => rw [hl] at h1; exact absurd h1 (by simp)
        rw [hlink]
        refine ih (m + 1) (cm :: V) hmlt (by omega) ?_ c' hc'
        intro i hi1 hi2 c hc hmemc
        rcases List.mem_cons.mp hmemc with rfl | hvmem
        · have : i = m := hinj i m hi2 hm (by rw [hc, hcm])
          omega
        · exact hV i (by omega) hi2 c hc hvmem

theorem reach_mem_ancestorWalk (g : ParentGraph) (b a : String) :
    ∀ k, parentIter g k b = some a → a ∈ (ancestorWalk g b).1 := by
  intro k
  induction k using Nat.strong_induction_on with
  | _ k ihk =>
    intro hk
    by_cases hinj : ∀ i j, i ≤ k → j ≤ k →
        parentIter g i b = parentIter g j b → i = j
    · have hkle : k ≤ g.length := by
        set f : Nat → String := fun i => (parentIter g i b).getD "" with hf
        set l : List String := (List.range k).map f with hl
        have hnodup : l.Nodup := by
          refine List.Nodup.map_on ?_ (List.nodup_range k)
          intro x hx y hy hxy
          rw [List.mem_range] at hx hy
          obtain ⟨cx, hcx⟩ := parentIter_isSome_of_le g hk (Nat.le_of_lt hx)
          obtain ⟨cy, hcy⟩ := parentIter_isSome_of_le g hk (Nat.le_of_lt hy)
          have : cx = cy := by
            have h1 : f x = cx := by rw [hf]; simp [hcx]
            have h2 : f y = cy := by rw [hf]; simp [hcy]
            rw [← h1, ← h2, hxy]
          exact hinj x y (Nat.le_of_lt hx) (Nat.le_of_lt hy)
            (by rw [hcx, hcy, this])
        have hsub : ∀ z ∈ l, z ∈ g.map Prod.fst := by
          intro z hz
          rw [hl, List.mem_map] at hz
          obtain ⟨i, hi, hfi⟩ := hz
          rw [List.mem_range] at hi
          obtain ⟨ci, hci⟩ := parentIter_isSome_of_le g hk (Nat.le_of_lt hi)
          obtain ⟨ci', hci'⟩ := parentIter_isSome_of_le g hk hi
          have hstep : parentIter g 1 ci = some ci' := by
            have hadd := parentIter_add g i 1 b
            rw [hci] at hadd
            simp only [Option.some_bind] at hadd
            rw [← hadd]
            exact hci'
          have hlinkci : parentLink g ci ≠ none := by
            intro hnone
            simp only [parentIter, hnone] at hstep
            simp at hstep
          obtain ⟨pc, hpc⟩ := Option.ne_none_iff_exists'.mp hlinkci
          have hzci : z = ci := by rw [← hfi, hf]; simp [hci]
          exact hzci ▸ parentLink_mem_keys g hpc
        have h1 : l.length = k := by rw [hl]; simp
        have h2 : l.toFinset.card = l.length := List.toFinset_card_of_nodup hnodup
        have h3 : l.toFinset ⊆ (g.map Prod.fst).toFinset := by
          intro z hz
          rw [List.mem_toFinset] at hz ⊢
          exact hsub z hz
        have h4 : (g.map Prod.fst).toFinset.card ≤ (g.map Prod.fst).length :=
          List.toFinset_card_le _
        have h5 : (g.map Prod.fst).length = g.length := List.length_map _ _
        calc k = l.toFinset.card := by rw [h2, h1]
          _ ≤ (g.map Prod.fst).toFinset.card := Finset.card_le_card h3
          _ ≤ (g.map Prod.fst).length := h4
          _ = g.length := h5
      exact walk_follow g hk hinj (g.length + 1) 0 [] (Nat.zero_le k)
        (by omega) (fun i _ _ c _ hc => by simp at hc) b rfl
    · push_neg at hinj
      obtain ⟨i, j, hi, hj, heq, hne⟩ := hinj
      rcases hne.lt_or_lt with hij | hij
      · have hk' : parentIter g (i + (k - j)) b = some a := by
          have h1 : k = j + (k - j) := by omega
          rw [h1, parentIter_add, ← heq, ← parentIter_add] at hk
          exact hk
        exact ihk (i + (k - j)) (by omega) hk'
      · have hk' : parentIter g (j + (k - i)) b = some a := by
          have h1 : k = i + (k - i) := by omega
          rw [h1, parentIter_add, heq, ← parentIter_add] at hk
          exact hk
        exact ihk (j + (k - i)) (by omega) hk'

/-! ## Abort/restore lemmas -/

theorem restoreTips_saved (tips0 : String → Nat) (plan : List String) :
    ∀ (t : String → Nat) (n : String),
      restoreTips t (plan.map (fun b => (b, tips0 b))) n
        = if n ∈ plan then tips0 n else t n := by
  induction plan with
  | nil => intro t n; simp [restoreTips]
  | cons b rest ih =>
      intro t n
      have hstep :
          restoreTips t ((b :: rest).map (fun b => (b, tips0 b))) n
            = restoreTips (setTip t b (tips0 b)) (rest.map (fun b => (b, tips0 b))) n := rfl
      rw [hstep, ih]
      by_cases hr : n ∈ rest
      · simp [hr]
      · by_cases hb : n = b
        · subst hb; simp [hr, setTip]
        · simp [hr, hb, setTip]

theorem runSteps_inv (bid : Nat) (B : List (Nat × List (String × Nat)))
    (plan : List String) (t0 : String → Nat) :
    ∀ (newTips : List Nat) (s : EngineState),
      (∃ ss, s.syncState = some ss ∧ ss.backupId = bid ∧ ss.remaining ⊆ plan) →
      s.backups = B →
      (∀ n, n ∉ plan → s.tips n = t0 n) →
      ∃ ss, (runSteps s newTips).syncState = some ss ∧ ss.backupId = bid
        ∧ ss.remaining ⊆ plan
        ∧ (runSteps s newTips).backups = B
        ∧ (∀ n, n ∉ plan → (runSteps s newTips).tips n = t0 n) := by
  intro newTips
  induction newTips with
  | nil =>
      intro s h1 h2 h3
      obtain ⟨ss, hss, hb, hr⟩ := h1
      exact ⟨ss, hss, hb, hr, h2, h3⟩
  | cons v rest ih =>
      intro s h1 h2 h3
      obtain ⟨ss, hss, hb, hr⟩ := h1
      have hfold : runSteps s (v :: rest) = runSteps (runStep s v) rest := rfl
      rw [hfold]
      cases hrem : ss.remaining with
      | nil =>
          have hid : runStep s v = s := by simp [runStep, hss, hrem]
          rw [hid]
          exact ih s ⟨ss, hss, hb, hr⟩ h2 h3
      | cons b brest =>
          have hbp : b ∈ plan := hr (hrem ▸ List.mem_cons_self b brest)
          have hstep : runStep s v =
              { s with
                  tips := setTip s.tips b v,
                  syncState :=
                    some { ss with
                            completed := ss.completed ++ [b], remaining := brest } } := by
            simp [runStep, hss, hrem]
          refine ih (runStep s v)
            ⟨{ ss with completed := ss.completed ++ [b], remaining := brest },
              by rw [hstep], hb, ?_⟩ (by rw [hstep]; exact h2) ?_
          · intro x hx
            exact hr (hrem ▸ List.mem_cons_of_mem b hx)
          · intro n hn
            rw [hstep]
            have hnb : n ≠ b := fun h => hn (h ▸ hbp)
            simp [setTip, hnb, h3 n hn]

/-! ## Plan-execution lemmas -/

theorem actionFn_name (n : String) (pt : List Nat) (fresh : Nat) (c : MBranch) :
    (actionFn n pt fresh c).name = c.name := by
  unfold actionFn; split <;> rfl

theorem actionFn_parent (n : String) (pt : List Nat) (fresh : Nat) (c : MBranch) :
    (actionFn n pt fresh c).parent = c.parent := by
  unfold actionFn; split <;> rfl

theorem actionFn_of_ne (n : String) (pt : List Nat) (fresh : Nat) (c : MBranch)
    (h : c.name ≠ n) : actionFn n pt fresh c = c := by
  unfold actionFn
  rw [if_neg (by simpa using h)]

theorem find?_map_name (fn : MBranch → MBranch) (hfn : ∀ c, (fn c).name = c.name)
    (l : List MBranch) (m : String) :
    (l.map fn).find? (fun c => c.name == m)
      = (l.find? (fun c => c.name == m)).map fn := by
  induction l with
  | nil => rfl
  | cons c t ih =>
      by_cases h : (c.name == m) = true
      · rw [List.map_cons, List.find?_cons_of_pos _ (by simpa [hfn c] using h),
          @List.find?_cons_of_pos _ (fun c => c.name == m) c t h]
        rfl
      · rw [List.map_cons, List.find?_cons_of_neg _ (by simpa [hfn c] using h),
          @List.find?_cons_of_neg _ (fun c => c.name == m) c t h]
        exact ih

theorem lookupBranch_execAction_shape (env : SyncEnv) (f : Nat) (n m : String) :
    ∃ fn : MBranch → MBranch,
      (∀ c, (fn c).name = c.name) ∧ (∀ c, (fn c).parent = c.parent)
      ∧ (∀ c, c.name ≠ n → fn c = c)
      ∧ lookupBranch (execAction env f n) m = (lookupBranch env m).map fn := by
  cases hb : lookupBranch env n with
  | none =>
      refine ⟨id, fun c => rfl, fun c => rfl, fun c _ => rfl, ?_⟩
      simp [execAction, hb]
  | some b =>
      cases hpt : parentTip env b with
      | none =>
          refine ⟨id, fun c => rfl, fun c => rfl, fun c _ => rfl, ?_⟩
          simp [execAction, hb, hpt]
      | some pt =>
          refine ⟨actionFn n pt f, actionFn_name n pt f, actionFn_parent n pt f,
            actionFn_of_ne n pt f, ?_⟩
          have hexec : execAction env f n
              = { env with branches := env.branches.map (actionFn n pt f) } := by
            simp [execAction, hb, hpt]
          rw [hexec]
          show (env.branches.map (actionFn n pt f)).find? (fun c => c.name == m)
            = (lookupBranch env m).map (actionFn n pt f)
          exact find?_map_name (actionFn n pt f) (actionFn_name n pt f) env.branches m

theorem lookupBranch_execAction_other (env : SyncEnv) (f : Nat) (n m : String)
    (hnm : m ≠ n) : lookupBranch (execAction env f n) m = lookupBranch env m := by
  obtain ⟨fn, hname, _, hid, heq⟩ := lookupBranch_execAction_shape env f n m
  rw [heq]
  cases hm : lookupBranch env m with
  | none => rfl
  | some c =>
      have hcm : c.name = m := by simpa using List.find?_some hm
      rw [Option.map_some', hid c (by rw [hcm]; exact hnm)]

theorem lookupBranch_execAction_self (env : SyncEnv) (f : Nat) (n : String)
    {b : MBranch} {pt : List Nat} (hb : lookupBranch env n = some b)
    (hpt : parentTip env b = some pt) :
    lookupBranch (execAction env f n) n =
      some { b with tip := rebaseOnto pt f, lastKnownParentTip := some pt } := by
  have hfire : execAction env f n =
      { env with branches := env.branches.map (actionFn n pt f) } := by
    simp [execAction, hb, hpt]
  have hbn : b.name = n := by simpa using List.find?_some hb
  rw [hfire]
  show (env.branches.map (actionFn n pt f)).find? (fun c => c.name == n)
    = some { b with tip := rebaseOnto pt f, lastKnownParentTip := some pt }
  rw [find?_map_name (actionFn n pt f) (actionFn_name n pt f) env.branches n]
  unfold lookupBranch at hb
  rw [hb, Option.map_some']
  unfold actionFn
  rw [if_pos (by simpa using hbn)]

theorem execAction_base (env : SyncEnv) (f : Nat) (n : String) :
    (execAction env f n).base = env.base := by
  cases hb : lookupBranch env n with
  | none => simp [execAction, hb]
  | some b =>
      cases hpt : parentTip env b with
      | none => simp [execAction, hb, hpt]
      | some pt => simp [execAction, hb, hpt]

theorem execPlan_base : ∀ (l : List String) (env : SyncEnv) (f : Nat),
    (execPlan env l f).base = env.base := by
  intro l
  induction l with
  | nil => intro env f; rfl
  | cons n rest ih =>
      intro env f
      show (execPlan (execAction env f n) rest (f + 1)).base = env.base
      rw [ih, execAction_base]

theorem lookupBranch_execPlan_stable :
    ∀ (l : List String) (env : SyncEnv) (f : Nat) (m : String), m ∉ l →
      lookupBranch (execPlan env l f) m = lookupBranch env m := by
  intro l
  induction l with
  | nil => intro env f m _; rfl
  | cons n rest ih =>
      intro env f m hm
      show lookupBranch (execPlan (execAction env f n) rest (f + 1)) m = _
      rw [ih (execAction env f n) (f + 1) m (fun h => hm (List.mem_cons_of_mem n h)),
        lookupBranch_execAction_other env f n m (fun h => hm (h ▸ List.mem_cons_self n rest))]

theorem parentOf_execAction (env : SyncEnv) (f : Nat) (n m : String) :
    parentOf (execAction env f n) m = parentOf env m := by
  unfold parentOf
  obtain ⟨fn, _, hpar, _, heq⟩ := lookupBranch_execAction_shape env f n m
  rw [heq]
  cases lookupBranch env m with
  | none => rfl
  | some c => simp [hpar c]

theorem planOrderOk_execAction (env : SyncEnv) (f : Nat) (n : String) :
    ∀ l, planOrderOk (execAction env f n) l = planOrderOk env l := by
  intro l
  induction l with
  | nil => rfl
  | cons x rest ih =>
      have h1 : planOrderOk (execAction env f n) (x :: rest)
          = ((match parentOf (execAction env f n) x with
              | some (some p) => !(decide (p ∈ x :: rest))
              | _ => true) && planOrderOk (execAction env f n) rest) := rfl
      have h2 : planOrderOk env (x :: rest)
          = ((match parentOf env x with
              | some (some p) => !(decide (p ∈ x :: rest))
              | _ => true) && planOrderOk env rest) := rfl
      rw [h1, h2, parentOf_execAction, ih]

theorem planResolvesOk_execAction (env : SyncEnv) (f : Nat) (n : String) :
    ∀ l, planResolvesOk (execAction env f n) l = planResolvesOk env l := by
  intro l
  induction l with
  | nil => rfl
  | cons x rest ih =>
      obtain ⟨fn, hname, hpar, hid, heq⟩ := lookupBranch_execAction_shape env f n x
      have h1 : planResolvesOk (execAction env f n) (x :: rest)
          = ((match lookupBranch (execAction env f n) x with
              | some b =>
                  (match b.parent with
                    | some p => (lookupBranch (execAction env f n) p).isSome
                    | none => true)
              | none => false) && planResolvesOk (execAction env f n) rest) := rfl
      have h2 : planResolvesOk env (x :: rest)
          = ((match lookupBranch env x with
              | some b =>
                  (match b.parent with
                    | some p => (lookupBranch env p).isSome
                    | none => true)
              | none => false) && planResolvesOk env rest) := rfl
      rw [h1, h2, ih, heq]
      congr 1
      cases lookupBranch env x with
      | none => rfl
      | some b =>
          rw [Option.map_some']
          show (match (fn b).parent with
                | some p => (lookupBranch (execAction env f n) p).isSome
                | none => true)
            = (match b.parent with
                | some p => (lookupBranch env p).isSome
                | none => true)
          rw [hpar b]
          cases b.parent with
          | none => rfl
          | some p =>
              obtain ⟨fn2, _, _, _, heq2⟩ := lookupBranch_execAction_shape env f n p
              show (lookupBranch (execAction env f n) p).isSome
                = (lookupBranch env p).isSome
              rw [heq2]
              cases lookupBranch env p <;> rfl

/-! ## DFS ladder lemmas -/

theorem filter_length_mono {α : Type} (p q : α → Bool)
    (h : ∀ x, q x = true → p x = true) :
    ∀ l : List α, (l.filter q).length ≤ (l.filter p).length := by
  intro l
  induction l with
  | nil => simp
  | cons x t ih =>
      by_cases hq : q x = true
      · rw [List.filter_cons_of_pos hq, List.filter_cons_of_pos (h x hq)]
        simpa using ih
      · rw [List.filter_cons_of_neg (by simpa using hq)]
        by_cases hp : p x = true
        · rw [List.filter_cons_of_pos hp]
          exact le_trans ih (by simp)
        · rw [List.filter_cons_of_neg (by simpa using hp)]
          exact ih



theorem unvisitedCount_mono (bs : List BranchInfo) {V V' : List String}
    (h : ∀ x, x ∈ V → x ∈ V') :
    unvisitedCount bs V' ≤ unvisitedCount bs V := by
  refine filter_length_mono _ _ ?_ _
  intro x hx
  simp only [Bool.not_eq_true', decide_eq_false_iff_not] at hx ⊢
  exact fun hv => hx (h x hv)

theorem filter_notMem_length_lt (a : String) :
    ∀ (l V : List String), a ∈ l → a ∉ V →
      (l.filter (fun x => !(decide (x ∈ a :: V)))).length
        < (l.filter (fun x => !(decide (x ∈ V)))).length := by
  intro l
  induction l with
  | nil => intro V ha _; simp at ha
  | cons x t ih =>
      intro V ha hV
      by_cases hxa : x = a
      · subst hxa
        rw [List.filter_cons_of_neg (by simp), List.filter_cons_of_pos (by simpa using hV)]
        have hle : (t.filter (fun y => !(decide (y ∈ x :: V)))).length
            ≤ (t.filter (fun y => !(decide (y ∈ V)))).length := by
          refine filter_length_mono _ _ ?_ t
          intro y hy
          simp only [Bool.not_eq_true', decide_eq_false_iff_not, List.mem_cons] at hy ⊢
          exact fun hv => hy (Or.inr hv)
        simpa using Nat.lt_succ_of_le hle
      · have hat : a ∈ t := by
          rcases List.mem_cons.mp ha with h | h
          · exact absurd h.symm hxa
          · exact h
        by_cases hxV : x ∈ V
        · rw [List.filter_cons_of_neg (by simp [hxV]),
            List.filter_cons_of_neg (by simp [hxV])]
          exact ih V hat hV
        · rw [List.filter_cons_of_pos (by simp [hxV, hxa]),
            List.filter_cons_of_pos (by simpa using hxV)]
          simpa using ih V hat hV

theorem unvisitedCount_cons_lt (bs : List BranchInfo) {V : List String}
    {b : BranchInfo} (hb : b ∈ bs) (hV : b.name ∉ V) :
    unvisitedCount bs (b.name :: V) < unvisitedCount bs V := by
  unfold unvisitedCount
  exact filter_notMem_length_lt b.name (bs.map (fun b => b.name)) V
    (List.mem_map_of_mem _ hb) hV



theorem StRel.refl (bs : List BranchInfo) (s : LadderSt) : StRel bs s s :=
  ⟨[], by simp, by simp, by simp, by simp, by simp⟩

theorem StRel.trans {bs : List BranchInfo} {s t u : LadderSt}
    (h1 : StRel bs s t) (h2 : StRel bs t u) : StRel bs s u := by
  obtain ⟨Δ1, ho1, hm1, hf1, hn1, hb1⟩ := h1
  obtain ⟨Δ2, ho2, hm2, hf2, hn2, hb2⟩ := h2
  refine ⟨Δ1 ++ Δ2, by rw [ho2, ho1, List.append_assoc], ?_, ?_, ?_, ?_⟩
  · intro x
    rw [hm2 x, hm1 x]
    simp [or_assoc]
  · intro x hx
    rw [List.map_append, List.mem_append] at hx
    rcases hx with hx | hx
    · exact hf1 x hx
    · intro hs
      exact hf2 x hx ((hm1 x).mpr (Or.inl hs))
  · rw [List.map_append]
    refine List.Nodup.append hn1 hn2 ?_
    intro x hx1 hx2
    exact hf2 x hx2 ((hm1 x).mpr (Or.inr hx1))
  · intro b hb
    rcases List.mem_append.mp hb with h | h
    · exact hb1 b h
    · exact hb2 b h

theorem StRel.visited_mono {bs : List BranchInfo} {s s' : LadderSt}
    (h : StRel bs s s') : ∀ x, x ∈ s.1 → x ∈ s'.1 := by
  obtain ⟨Δ, _, hm, _, _, _⟩ := h
  intro x hx
  exact (hm x).mpr (Or.inl hx)

theorem foldl_StRel (bs : List BranchInfo) (f : LadderSt → BranchInfo → LadderSt)
    (hf : ∀ st c, c ∈ bs → StRel bs st (f st c)) :
    ∀ (l : List BranchInfo) (st : LadderSt), (∀ c, c ∈ l → c ∈ bs) →
      StRel bs st (l.foldl f st) := by
  intro l
  induction l with
  | nil => intro st _; exact StRel.refl bs st
  | cons c t ih =>
      intro st hl
      have h1 : StRel bs st (f st c) := hf st c (hl c (List.mem_cons_self c t))
      have h2 : StRel bs (f st c) (t.foldl f (f st c)) :=
        ih (f st c) (fun d hd => hl d (List.mem_cons_of_mem c hd))
      exact h1.trans h2

theorem visit_StRel (bs : List BranchInfo) :
    ∀ (fuel : Nat) (st : LadderSt) (b : BranchInfo), b ∈ bs →
      StRel bs st (visit bs fuel st b) := by
  intro fuel
  induction fuel with
  | zero => intro st b _; exact StRel.refl bs st
  | succ fuel ih =>
      intro st b hb
      show StRel bs st (visit bs (fuel + 1) st b)
      simp only [visit]
      by_cases hg : b.name ∈ st.1
      · rw [if_pos hg]; exact StRel.refl bs st
      · rw [if_neg hg]
        have hchild : ∀ c, c ∈ childrenOf bs b.name → c ∈ bs :=
          fun c hc => List.mem_of_mem_filter hc
        have hfold : StRel bs (b.name :: st.1, st.2)
            ((childrenOf bs b.name).foldl (visit bs fuel) (b.name :: st.1, st.2)) :=
          foldl_StRel bs (visit bs fuel) (fun st2 c hc => ih st2 c hc)
            (childrenOf bs b.name) (b.name :: st.1, st.2) hchild
        obtain ⟨Δc, ho, hm, hfr, hnd, hbs⟩ := hfold
        refine ⟨Δc ++ [b], ?_, ?_, ?_, ?_, ?_⟩
        · show ((childrenOf bs b.name).foldl (visit bs fuel)
              (b.name :: st.1, st.2)).2 ++ [b] = st.2 ++ (Δc ++ [b])
          rw [ho]
          simp
        · intro x
          show x ∈ ((childrenOf bs b.name).foldl (visit bs fuel)
              (b.name :: st.1, st.2)).1 ↔ _
          rw [hm x]
          simp only [List.map_append, List.mem_append, List.mem_cons,
            List.map_cons, List.map_nil]
          constructor
          · rintro (h | h)
            · rcases h with h | h
              · exact Or.inr (Or.inr (by simp [h]))
              · exact Or.inl h
            · exact Or.inr (Or.inl h)
          · rintro (h | h)
            · exact Or.inl (Or.inr h)
            · rcases h with h | h
              · exact Or.inr h
              · exact Or.inl (Or.inl (by simpa using h))
        · intro x hx
          rw [List.map_append, List.mem_append] at hx
          rcases hx with hx | hx
          · intro hs
            exact hfr x hx (List.mem_cons_of_mem _ hs)
          · intro hs
            have : x = b.name := by simpa using hx
            exact hg (this ▸ hs)
        · rw [List.map_append]
          refine List.Nodup.append hnd (by simp) ?_
          intro x hx1 hx2
          have hxb : x = b.name := by simpa using hx2
          exact hfr x hx1 (hxb ▸ List.mem_cons_self b.name st.1)
        · intro c hc
          rcases List.mem_append.mp hc with h | h
          · exact hbs c h
          · have : c = b := by simpa using h
            exact this ▸ hb

theorem visit_marks (bs : List BranchInfo) :
    ∀ (fuel : Nat) (st : LadderSt) (b : BranchInfo), b ∈ bs → 1 ≤ fuel →
      b.name ∈ (visit bs fuel st b).1 := by
  intro fuel st b hb hf
  match fuel, hf with
  | fuel + 1, _ =>
    show b.name ∈ (visit bs (fuel + 1) st b).1
    simp only [visit]
    by_cases hg : b.name ∈ st.1
    · rw [if_pos hg]; exact hg
    · rw [if_neg hg]
      have hfold := foldl_StRel bs (visit bs fuel)
        (fun st2 c hc => visit_StRel bs fuel st2 c hc)
        (childrenOf bs b.name) (b.name :: st.1, st.2)
        (fun c hc => List.mem_of_mem_filter hc)
      exact hfold.visited_mono b.name (List.mem_cons_self _ _)

theorem visit_fuel_stable (bs : List BranchInfo) :
    ∀ (k fuel : Nat) (st : LadderSt) (b : BranchInfo), b ∈ bs →
      unvisitedCount bs st.1 < k → k ≤ fuel →
      visit bs fuel st b = visit bs k st b := by
  intro k
  induction k using Nat.strong_induction_on with
  | _ k ihk =>
    intro fuel st b hb hm hkf
    match k, fuel, hkf with
    | 0, _, _ => omega
    | k' + 1, fuel' + 1, _ =>
      have hk'f : k' ≤ fuel' := by omega
      show visit bs (fuel' + 1) st b = visit bs (k' + 1) st b
      simp only [visit]
      by_cases hg : b.name ∈ st.1
      · rw [if_pos hg, if_pos hg]
      · rw [if_neg hg, if_neg hg]
        have hm1 : unvisitedCount bs (b.name :: st.1) < k' := by
          have := unvisitedCount_cons_lt bs hb hg
          omega
        have hinner : ∀ (l : List BranchInfo) (st0 : LadderSt),
            (∀ c, c ∈ l → c ∈ bs) → unvisitedCount bs st0.1 < k' →
            l.foldl (visit bs fuel') st0 = l.foldl (visit bs k') st0 := by
          intro l
          induction l with
          | nil => intro st0 _ _; rfl
          | cons c t ihl =>
              intro st0 hl hm0
              have hc : c ∈ bs := hl c (List.mem_cons_self c t)
              have h1 : visit bs fuel' st0 c = visit bs k' st0 c :=
                ihk k' (by omega) fuel' st0 c hc hm0 hk'f
              rw [List.foldl_cons, List.foldl_cons, h1]
              refine ihl (visit bs k' st0 c)
                (fun d hd => hl d (List.mem_cons_of_mem c hd)) ?_
              have hrel := visit_StRel bs k' st0 c hc
              exact lt_of_le_of_lt (unvisitedCount_mono bs hrel.visited_mono) hm0
        have hfold := hinner (childrenOf bs b.name) (b.name :: st.1, st.2)
          (fun c hc => List.mem_of_mem_filter hc) hm1
        show (((childrenOf bs b.name).foldl (visit bs fuel') (b.name :: st.1, st.2)).1,
            ((childrenOf bs b.name).foldl (visit bs fuel') (b.name :: st.1, st.2)).2 ++ [b])
          = (((childrenOf bs b.name).foldl (visit bs k') (b.name :: st.1, st.2)).1,
            ((childrenOf bs b.name).foldl (visit bs k') (b.name :: st.1, st.2)).2 ++ [b])
        rw [hfold]

theorem unvisitedCount_nil (bs : List BranchInfo) :
    unvisitedCount bs [] = bs.length := by
  simp [unvisitedCount]

theorem ladderOrderedF_stable (bs : List BranchInfo) (fuel : Nat)
    (h : bs.length + 1 ≤ fuel) :
    ladderOrderedF fuel bs = ladderOrderedF (bs.length + 1) bs := by
  unfold ladderOrderedF
  have hinner : ∀ (l : List BranchInfo) (st0 : LadderSt),
      (∀ c, c ∈ l → c ∈ bs) → unvisitedCount bs st0.1 < bs.length + 1 →
      l.foldl (visit bs fuel) st0 = l.foldl (visit bs (bs.length + 1)) st0 := by
    intro l
    induction l with
    | nil => intro st0 _ _; rfl
    | cons c t ihl =>
        intro st0 hl hm0
        have hc : c ∈ bs := hl c (List.mem_cons_self c t)
        have h1 : visit bs fuel st0 c = visit bs (bs.length + 1) st0 c :=
          visit_fuel_stable bs (bs.length + 1) fuel st0 c hc hm0 h
        rw [List.foldl_cons, List.foldl_cons, h1]
        refine ihl (visit bs (bs.length + 1) st0 c)
          (fun d hd => hl d (List.mem_cons_of_mem c hd)) ?_
        have hrel := visit_StRel bs (bs.length + 1) st0 c hc
        exact lt_of_le_of_lt (unvisitedCount_mono bs hrel.visited_mono) hm0
  rw [hinner (ladderRoots bs) ([], []) (fun c hc => List.mem_of_mem_filter hc)
    (by rw [unvisitedCount_nil]; omega)]

theorem buildLadderF_stable (status : StatusOutput) (fuel : Nat)
    (h : status.branches.length + 1 ≤ fuel) :
    buildLadderF fuel status = buildLadder status := by
  unfold buildLadder buildLadderF
  rw [ladderOrderedF_stable status.branches fuel h]

theorem posLoop_cyc_diverges :
    ∀ (fuel depth : Nat),
      posLoop cycStatus.branches ["A", "B"] fuel depth (some cycBranchA) = none
      ∧ posLoop cycStatus.branches ["A", "B"] fuel depth (some cycBranchB) = none := by
  intro fuel
  induction fuel with
  | zero => intro depth; exact ⟨rfl, rfl⟩
  | succ fuel ih =>
      intro depth
      exact ⟨(ih (depth + 1)).2, (ih (depth + 1)).1⟩

/-! ## Ladder coverage lemmas -/

theorem find?_name_of_nodup :
    ∀ (bs : List BranchInfo), (bs.map (fun b => b.name)).Nodup →
      ∀ {b : BranchInfo}, b ∈ bs → bs.find? (fun c => c.name == b.name) = some b := by
  intro bs
  induction bs with
  | nil => intro _ b hb; simp at hb
  | cons x t ih =>
      intro hnodup b hb
      rw [List.map_cons, List.nodup_cons] at hnodup
      by_cases hx : (x.name == b.name) = true
      · rw [@List.find?_cons_of_pos _ (fun c => c.name == b.name) x t hx]
        rcases List.mem_cons.mp hb with rfl | hbt
        · rfl
        · exfalso
          have hxb : x.name = b.name := by simpa using hx
          exact hnodup.1 (hxb ▸ List.mem_map_of_mem (fun b => b.name) hbt)
      · rw [@List.find?_cons_of_neg _ (fun c => c.name == b.name) x t hx]
        rcases List.mem_cons.mp hb with rfl | hbt
        · exact absurd (by simp) hx
        · exact ih hnodup.2 hbt

theorem lookupParent_toGraph (bs : List BranchInfo)
    (hnodup : (bs.map (fun b => b.name)).Nodup) {b : BranchInfo} (hb : b ∈ bs) :
    lookupParent (toGraph bs) b.name = some b.parent := by
  unfold lookupParent toGraph
  rw [List.find?_map]
  rw [show ((fun p : String × Option String => p.1 == b.name)
      ∘ (fun c : BranchInfo => (c.name, c.parent)))
      = (fun c : BranchInfo => c.name == b.name) from rfl]
  rw [find?_name_of_nodup bs hnodup hb]
  rfl

theorem parentLink_toGraph (bs : List BranchInfo)
    (hnodup : (bs.map (fun b => b.name)).Nodup) {b : BranchInfo} (hb : b ∈ bs) :
    parentLink (toGraph bs) b.name = b.parent.bind some := by
  unfold parentLink
  rw [lookupParent_toGraph bs hnodup hb]
  cases b.parent <;> rfl

theorem acyclic_escape (bs : List BranchInfo) (h : acyclicCheck bs = true) :
    ∀ b, b ∈ bs → ∃ k, parentIter (toGraph bs) k b.name = none := by
  intro b hb
  unfold acyclicCheck at h
  rw [List.all_eq_true] at h
  have h2 := h b hb
  rw [List.any_eq_true] at h2
  obtain ⟨k, _, hk⟩ := h2
  exact ⟨k, by simpa [Option.isNone_iff_eq_none] using hk⟩

theorem foldl_visit_marks (bs : List BranchInfo) (fuel : Nat) (hf : 1 ≤ fuel) :
    ∀ (l : List BranchInfo) (st : LadderSt), (∀ c, c ∈ l → c ∈ bs) →
      ∀ c, c ∈ l → c.name ∈ (l.foldl (visit bs fuel) st).1 := by
  intro l
  induction l with
  | nil => intro st _ c hc; simp at hc
  | cons d t ih =>
      intro st hl c hc
      rw [List.foldl_cons]
      rcases List.mem_cons.mp hc with rfl | hct
      · have h1 : c.name ∈ (visit bs fuel st c).1 :=
          visit_marks bs fuel st c (hl c (List.mem_cons_self c t)) hf
        have h2 := foldl_StRel bs (visit bs fuel)
          (fun st2 e he => visit_StRel bs fuel st2 e he) t (visit bs fuel st c)
          (fun e he => hl e (List.mem_cons_of_mem _ he))
        exact h2.visited_mono c.name h1
      · exact ih (visit bs fuel st d)
          (fun e he => hl e (List.mem_cons_of_mem _ he)) c hct

theorem visit_child_closure (bs : List BranchInfo) :
    ∀ (fuel : Nat) (st : LadderSt) (b : BranchInfo), b ∈ bs →
      unvisitedCount bs st.1 < fuel →
      ∀ x, x ∈ (visit bs fuel st b).1 → x ∉ st.1 →
        ∀ c, c ∈ childrenOf bs x → c.name ∈ (visit bs fuel st b).1 := by
  intro fuel
  induction fuel with
  | zero => intro st b _ hm; omega
  | succ fuel ih =>
      intro st b hb hm x hx hxnot c hc
      revert hx
      show x ∈ (visit bs (fuel + 1) st b).1 → c.name ∈ (visit bs (fuel + 1) st b).1
      simp only [visit]
      by_cases hg : b.name ∈ st.1
      · rw [if_pos hg]; intro hx; exact absurd hx hxnot
      · rw [if_neg hg]
        intro hx
        have hcons := unvisitedCount_cons_lt bs hb hg
        have hm1 : unvisitedCount bs (b.name :: st.1) < fuel := by omega
        have hf1 : 1 ≤ fuel := by omega
        have hinner : ∀ (l : List BranchInfo) (st0 : LadderSt),
            (∀ e, e ∈ l → e ∈ bs) → unvisitedCount bs st0.1 < fuel →
            ∀ y, y ∈ (l.foldl (visit bs fuel) st0).1 → y ∉ st0.1 →
              ∀ d, d ∈ childrenOf bs y → d.name ∈ (l.foldl (visit bs fuel) st0).1 := by
          intro l
          induction l with
          | nil => intro st0 _ _ y hy hynot; exact absurd hy hynot
          | cons e t ihl =>
              intro st0 hl hm0 y hy hynot d hd
              rw [List.foldl_cons] at hy ⊢
              by_cases hy1 : y ∈ (visit bs fuel st0 e).1
              · have hde : d.name ∈ (visit bs fuel st0 e).1 :=
                  ih st0 e (hl e (List.mem_cons_self e t)) hm0 y hy1 hynot d hd
                have h2 := foldl_StRel bs (visit bs fuel)
                  (fun s2 g hg2 => visit_StRel bs fuel s2 g hg2) t (visit bs fuel st0 e)
                  (fun g hg2 => hl g (List.mem_cons_of_mem _ hg2))
                exact h2.visited_mono d.name hde
              · refine ihl (visit bs fuel st0 e)
                  (fun g hg2 => hl g (List.mem_cons_of_mem _ hg2)) ?_ y hy hy1 d hd
                have hrel := visit_StRel bs fuel st0 e (hl e (List.mem_cons_self e t))
                exact lt_of_le_of_lt (unvisitedCount_mono bs hrel.visited_mono) hm0
        by_cases hxb : x = b.name
        · subst hxb
          exact foldl_visit_marks bs fuel hf1 (childrenOf bs b.name)
            (b.name :: st.1, st.2) (fun e he => List.mem_of_mem_filter he) c hc
        · have hxst1 : x ∉ (b.name :: st.1) := by
            intro h
            rcases List.mem_cons.mp h with h | h
            · exact hxb h
            · exact hxnot h
          exact hinner (childrenOf bs b.name) (b.name :: st.1, st.2)
            (fun e he => List.mem_of_mem_filter he) hm1 x hx hxst1 c hc

theorem ladderState_closed (bs : List BranchInfo) :
    ∀ x, x ∈ (ladderState bs).1 →
      ∀ c, c ∈ childrenOf bs x → c.name ∈ (ladderState bs).1 := by
  have hK : ∀ st : LadderSt, unvisitedCount bs st.1 < bs.length + 1 := by
    intro st
    have h1 : unvisitedCount bs st.1 ≤ unvisitedCount bs [] :=
      unvisitedCount_mono bs (fun x hx => by simp at hx)
    rw [unvisitedCount_nil] at h1
    omega
  have hgen : ∀ (l : List BranchInfo) (st : LadderSt), (∀ e, e ∈ l → e ∈ bs) →
      (∀ x, x ∈ st.1 → ∀ c, c ∈ childrenOf bs x → c.name ∈ st.1) →
      ∀ x, x ∈ (l.foldl (visit bs (bs.length + 1)) st).1 →
        ∀ c, c ∈ childrenOf bs x →
          c.name ∈ (l.foldl (visit bs (bs.length + 1)) st).1 := by
    intro l
    induction l with
    | nil => intro st _ hcl; exact hcl
    | cons e t ihl =>
        intro st hl hcl x hx c hc
        rw [List.foldl_cons] at hx ⊢
        refine ihl (visit bs (bs.length + 1) st e)
          (fun g hg => hl g (List.mem_cons_of_mem _ hg)) ?_ x hx c hc
        intro y hy d hd
        by_cases hyst : y ∈ st.1
        · have hdy : d.name ∈ st.1 := hcl y hyst d hd
          exact (visit_StRel bs (bs.length + 1) st e
            (hl e (List.mem_cons_self e t))).visited_mono d.name hdy
        · exact visit_child_closure bs (bs.length + 1) st e
            (hl e (List.mem_cons_self e t)) (hK st) y hy hyst d hd
  exact hgen (ladderRoots bs) ([], []) (fun e he => List.mem_of_mem_filter he)
    (fun x hx => by simp at hx)

theorem ladderState_coverage (bs : List BranchInfo)
    (hnodup : (bs.map (fun b => b.name)).Nodup) (hacyc : acyclicCheck bs = true) :
    ∀ b, b ∈ bs → b.name ∈ (ladderState bs).1 := by
  have hesc := acyclic_escape bs hacyc
  have hmain : ∀ k b, b ∈ bs → parentIter (toGraph bs) k b.name = none →
      b.name ∈ (ladderState bs).1 := by
    intro k
    induction k using Nat.strong_induction_on with
    | _ k ihk =>
      intro b hb hk
      by_cases hroot : isRoot (bs.map (fun b => b.name)) b = true
      · exact foldl_visit_marks bs (bs.length + 1) (by omega) (ladderRoots bs)
          ([], []) (fun e he => List.mem_of_mem_filter he) b
          (List.mem_filter.mpr ⟨hb, hroot⟩)
      · unfold isRoot at hroot
        cases hbp : b.parent with
        | none => rw [hbp] at hroot; exact absurd rfl hroot
        | some p =>
            rw [hbp] at hroot
            have hcond : ¬(((p == "") || !(List.contains (bs.map (fun b => b.name)) p))
                = true) := hroot
            rw [Bool.or_eq_true, not_or] at hcond
            obtain ⟨hpne, hpcont⟩ := hcond
            have hpmem : p ∈ bs.map (fun b => b.name) := by
              have hcontains : List.contains (bs.map (fun b => b.name)) p = true := by
                by_contra hcon
                exact hpcont (by simpa using hcon)
              simpa using hcontains
            obtain ⟨bp, hbpmem, hbpname⟩ := List.mem_map.mp hpmem
            have hlink : parentLink (toGraph bs) b.name = some p := by
              rw [parentLink_toGraph bs hnodup hb, hbp]; rfl
            match k, hk with
            | 0, hk => exact absurd hk (by simp [parentIter])
            | k' + 1, hk =>
              have hk' : parentIter (toGraph bs) k' p = none := by
                have hstep : parentIter (toGraph bs) (k' + 1) b.name
                    = parentIter (toGraph bs) k' p := by
                  show (match parentLink (toGraph bs) b.name with
                    | some q => parentIter (toGraph bs) k' q
                    | none => none) = _
                  rw [hlink]
                rw [← hstep]
                exact hk
              have hpmark : bp.name ∈ (ladderState bs).1 :=
                ihk k' (by omega) bp hbpmem (by rw [hbpname]; exact hk')
              have hbchild : b ∈ childrenOf bs bp.name := by
                refine List.mem_filter.mpr ⟨hb, ?_⟩
                rw [hbp, hbpname]
                simp
              exact ladderState_closed bs bp.name hpmark b hbchild
  intro b hb
  obtain ⟨k, hk⟩ := hesc b hb
  exact hmain k b hb hk

theorem ladderState_StRel (bs : List BranchInfo) :
    StRel bs ([], []) (ladderState bs) :=
  foldl_StRel bs (visit bs (bs.length + 1))
    (fun st c hc => visit_StRel bs (bs.length + 1) st c hc)
    (ladderRoots bs) ([], []) (fun _ hc => List.mem_of_mem_filter hc)

theorem ladderOrdered_perm (bs : List BranchInfo)
    (hnodup : (bs.map (fun b => b.name)).Nodup) (hacyc : acyclicCheck bs = true) :
    (ladderOrdered bs).Perm bs := by
  obtain ⟨Δ, ho, hm, hfr, hnd, hsub⟩ := ladderState_StRel bs
  have hord : ladderOrdered bs = Δ := ho
  rw [hord]
  have hΔnodup : Δ.Nodup := List.Nodup.of_map _ hnd
  have hbsnodup : bs.Nodup := List.Nodup.of_map _ hnodup
  refine (List.perm_ext_iff_of_nodup hΔnodup hbsnodup).mpr ?_
  intro a
  constructor
  · exact fun h => hsub a h
  · intro ha
    have hcov : a.name ∈ (ladderState bs).1 :=
      ladderState_coverage bs hnodup hacyc a ha
    rw [hm a.name] at hcov
    rcases hcov with h | h
    · simp at h
    · obtain ⟨a', ha', hname⟩ := List.mem_map.mp h
      have haa : a' = a := List.inj_on_of_nodup_map hnodup (hsub a' ha') ha hname
      exact haa ▸ ha'

/-! ## Ladder ordering lemmas -/



theorem activeChain_mem_iter (bs : List BranchInfo) :
    ∀ (A : List BranchInfo) (b : BranchInfo), ActiveChain bs b A →
      (bs.map (fun x => x.name)).Nodup → b ∈ bs →
      ∀ a, a ∈ A → ∃ i, 1 ≤ i ∧ parentIter (toGraph bs) i b.name = some a.name := by
  intro A
  induction A with
  | nil => intro b _ _ _ a ha; simp at ha
  | cons a0 A ih =>
      intro b hch hnodup hb a ha
      obtain ⟨hlink, ha0bs, hch'⟩ := hch
      have hstep : parentIter (toGraph bs) 1 b.name = some a0.name := by
        show (match parentLink (toGraph bs) b.name with
          | some p => parentIter (toGraph bs) 0 p
          | none => none) = some a0.name
        rw [parentLink_toGraph bs hnodup hb, hlink]
        rfl
      rcases List.mem_cons.mp ha with rfl | haA
      · exact ⟨1, le_rfl, hstep⟩
      · obtain ⟨i, hi1, hiter⟩ := ih a0 hch' hnodup ha0bs a haA
        refine ⟨1 + i, by omega, ?_⟩
        rw [parentIter_add, hstep]
        exact hiter

theorem child_notin_chain (bs : List BranchInfo)
    (hnodup : (bs.map (fun x => x.name)).Nodup)
    (hacyc : acyclicCheck bs = true) :
    ∀ (A : List BranchInfo) (b : BranchInfo), b ∈ bs → ActiveChain bs b A →
      ∀ c, c ∈ childrenOf bs b.name →
        c.name ∉ (b :: A).map (fun x => x.name) := by
  intro A b hb hch c hc hmem
  have hcbs : c ∈ bs := List.mem_of_mem_filter hc
  have hcparent : c.parent = some b.name := by
    have h := List.of_mem_filter hc
    simpa using h
  have hlinkc : parentLink (toGraph bs) c.name = some b.name := by
    rw [parentLink_toGraph bs hnodup hcbs, hcparent]; rfl
  obtain ⟨k, hk⟩ := acyclic_escape bs hacyc b hb
  have hloop : ∃ q, 1 ≤ q ∧ parentIter (toGraph bs) q b.name = some b.name := by
    rw [List.map_cons, List.mem_cons] at hmem
    rcases hmem with hcb | hcA
    · refine ⟨1, le_rfl, ?_⟩
      have hlb : parentLink (toGraph bs) b.name = some b.name := hcb ▸ hlinkc
      show (match parentLink (toGraph bs) b.name with
        | some p => parentIter (toGraph bs) 0 p
        | none => none) = some b.name
      rw [hlb]
      rfl
    · obtain ⟨a, haA, haname⟩ := List.mem_map.mp hcA
      obtain ⟨i, hi1, hiter⟩ := activeChain_mem_iter bs A b hch hnodup hb a haA
      refine ⟨i + 1, by omega, ?_⟩
      rw [parentIter_add, hiter]
      have hla : parentLink (toGraph bs) a.name = some b.name :=
        haname.symm ▸ hlinkc
      show (match parentLink (toGraph bs) a.name with
        | some p => parentIter (toGraph bs) 0 p
        | none => none) = some b.name
      rw [hla]
      rfl
  obtain ⟨q, hq1, hqloop⟩ := hloop
  exact parentIter_ne_none_of_loop (toGraph bs) hq1 hqloop k hk



theorem append_singleton_split {α : Type} {o1 : List α} {p : α} {o2 L : List α}
    {b : α} (h : o1 ++ p :: o2 = L ++ [b]) :
    (o1 = L ∧ p = b ∧ o2 = []) ∨ (∃ o2', o2 = o2' ++ [b] ∧ L = o1 ++ p :: o2') := by
  rcases List.eq_nil_or_concat o2 with rfl | ⟨o2', x, rfl⟩
  · left
    obtain ⟨h3, h4⟩ := List.append_inj' h rfl
    exact ⟨h3, by simpa using h4, rfl⟩
  · right
    rw [List.concat_eq_append] at h
    have h2 : (o1 ++ p :: o2') ++ [x] = L ++ [b] := by
      rw [← h]
      simp
    obtain ⟨h3, h4⟩ := List.append_inj' h2 rfl
    have hx : x = b := by simpa using h4
    exact ⟨o2', by rw [hx, List.concat_eq_append], h3.symm⟩

theorem childClosed_append (bs : List BranchInfo) (L : List BranchInfo)
    (b : BranchInfo) (hL : ChildClosedList bs L)
    (hb : ∀ c, c ∈ childrenOf bs b.name → c.name ∈ L.map (fun x => x.name)) :
    ChildClosedList bs (L ++ [b]) := by
  intro o1 p o2 heq c hc
  rcases append_singleton_split heq.symm with ⟨rfl, rfl, rfl⟩ | ⟨o2', _, hL2⟩
  · exact hb c hc
  · exact hL o1 p o2' hL2 c hc

theorem visit_ordering (bs : List BranchInfo)
    (hnodup : (bs.map (fun x => x.name)).Nodup)
    (hacyc : acyclicCheck bs = true) :
    ∀ (fuel : Nat) (st : LadderSt) (b : BranchInfo) (A : List BranchInfo),
      b ∈ bs → ActiveChain bs b A →
      unvisitedCount bs st.1 < fuel →
      (∀ x, x ∈ st.1 ↔
        (x ∈ A.map (fun a => a.name) ∨ x ∈ st.2.map (fun a => a.name))) →
      ChildClosedList bs st.2 →
      (∀ x, x ∈ (visit bs fuel st b).1 ↔
          (x ∈ A.map (fun a => a.name)
            ∨ x ∈ (visit bs fuel st b).2.map (fun a => a.name)))
      ∧ ChildClosedList bs (visit bs fuel st b).2 := by
  intro fuel
  induction fuel with
  | zero => intro st b A _ _ hm; omega
  | succ fuel ih =>
      intro st b A hb hch hm hinv hcl
      simp only [visit]
      by_cases hg : b.name ∈ st.1
      · rw [if_pos hg]
        exact ⟨hinv, hcl⟩
      · rw [if_neg hg]
        have hm1 := unvisitedCount_cons_lt bs hb hg
        have hmfuel : unvisitedCount bs (b.name :: st.1) < fuel := by omega
        have hf1 : 1 ≤ fuel := by omega
        have hinv1 : ∀ x, x ∈ (b.name :: st.1) ↔
            (x ∈ (b :: A).map (fun a => a.name) ∨ x ∈ st.2.map (fun a => a.name)) := by
          intro x
          rw [List.mem_cons, hinv x, List.map_cons, List.mem_cons]
          tauto
        have hinner : ∀ (l : List BranchInfo) (st0 : LadderSt),
            (∀ e, e ∈ l → e ∈ childrenOf bs b.name) →
            unvisitedCount bs st0.1 < fuel →
            (∀ x, x ∈ st0.1 ↔ (x ∈ (b :: A).map (fun a => a.name)
                ∨ x ∈ st0.2.map (fun a => a.name))) →
            ChildClosedList bs st0.2 →
            (∀ x, x ∈ (l.foldl (visit bs fuel) st0).1 ↔
                (x ∈ (b :: A).map (fun a => a.name)
                  ∨ x ∈ (l.foldl (visit bs fuel) st0).2.map (fun a => a.name)))
            ∧ ChildClosedList bs (l.foldl (visit bs fuel) st0).2 := by
          intro l
          induction l with
          | nil => intro st0 _ _ hinv0 hcl0; exact ⟨hinv0, hcl0⟩
          | cons e t ihl =>
              intro st0 hl hm0 hinv0 hcl0
              rw [List.foldl_cons]
              have hechild : e ∈ childrenOf bs b.name := hl e (List.mem_cons_self e t)
              have hebs : e ∈ bs := List.mem_of_mem_filter hechild
              have hech : ActiveChain bs e (b :: A) := by
                refine ⟨?_, hb, hch⟩
                have h := List.of_mem_filter hechild
                simpa using h
              have hstep := ih st0 e (b :: A) hebs hech hm0 hinv0 hcl0
              refine ihl (visit bs fuel st0 e)
                (fun g hg => hl g (List.mem_cons_of_mem _ hg)) ?_ hstep.1 hstep.2
              exact lt_of_le_of_lt
                (unvisitedCount_mono bs (visit_StRel bs fuel st0 e hebs).visited_mono)
                hm0
        obtain ⟨hinv2, hcl2⟩ := hinner (childrenOf bs b.name)
          (b.name :: st.1, st.2) (fun e he => he) hmfuel hinv1 hcl
        constructor
        · intro x
          show x ∈ ((childrenOf bs b.name).foldl (visit bs fuel)
              (b.name :: st.1, st.2)).1 ↔ _
          rw [hinv2 x]
          show _ ↔ _ ∨ x ∈ (((childrenOf bs b.name).foldl (visit bs fuel)
              (b.name :: st.1, st.2)).2 ++ [b]).map (fun a => a.name)
          rw [List.map_cons, List.mem_cons, List.map_append, List.mem_append]
          simp only [List.map_cons, List.map_nil, List.mem_singleton]
          tauto
        · show ChildClosedList bs (((childrenOf bs b.name).foldl (visit bs fuel)
              (b.name :: st.1, st.2)).2 ++ [b])
          refine childClosed_append bs _ b hcl2 ?_
          intro c hc
          have hcmark : c.name ∈ ((childrenOf bs b.name).foldl (visit bs fuel)
              (b.name :: st.1, st.2)).1 :=
            foldl_visit_marks bs fuel hf1 (childrenOf bs b.name)
              (b.name :: st.1, st.2) (fun e he => List.mem_of_mem_filter he) c hc
          rw [hinv2 c.name] at hcmark
          rcases hcmark with hin | hout
          · exact absurd hin (child_notin_chain bs hnodup hacyc A b hb hch c hc)
          · exact hout

theorem ladderState_ordering (bs : List BranchInfo)
    (hnodup : (bs.map (fun x => x.name)).Nodup)
    (hacyc : acyclicCheck bs = true) :
    ChildClosedList bs (ladderState bs).2 := by
  have hK : ∀ st : LadderSt, unvisitedCount bs st.1 < bs.length + 1 := by
    intro st
    have h1 : unvisitedCount bs st.1 ≤ unvisitedCount bs [] :=
      unvisitedCount_mono bs (fun x hx => by simp at hx)
    rw [unvisitedCount_nil] at h1
    omega
  have hgen : ∀ (l : List BranchInfo) (st : LadderSt), (∀ e, e ∈ l → e ∈ bs) →
      (∀ x, x ∈ st.1 ↔ x ∈ st.2.map (fun a => a.name)) →
      ChildClosedList bs st.2 →
      (∀ x, x ∈ (l.foldl (visit bs (bs.length + 1)) st).1 ↔
          x ∈ (l.foldl (visit bs (bs.length + 1)) st).2.map (fun a => a.name))
      ∧ ChildClosedList bs (l.foldl (visit bs (bs.length + 1)) st).2 := by
    intro l
    induction l with
    | nil => intro st _ hinv0 hcl0; exact ⟨hinv0, hcl0⟩
    | cons e t ihl =>
        intro st hl hinv0 hcl0
        rw [List.foldl_cons]
        have hebs : e ∈ bs := hl e (List.mem_cons_self e t)
        have hstep := visit_ordering bs hnodup hacyc (bs.length + 1) st e []
          hebs trivial (hK st) (fun x => by simpa using hinv0 x) hcl0
        exact ihl (visit bs (bs.length + 1) st e)
          (fun g hg => hl g (List.mem_cons_of_mem _ hg))
          (fun x => by simpa using hstep.1 x) hstep.2
  exact (hgen (ladderRoots bs) ([], []) (fun e he => List.mem_of_mem_filter he)
    (fun x => by simp) (fun o1 p o2 heq c hc => by simp at heq)).2

theorem ladderOrdered_child_before_parent (bs : List BranchInfo)
    (hnodup : (bs.map (fun b => b.name)).Nodup) (hacyc : acyclicCheck bs = true) :
    ∀ b p, b ∈ bs → p ∈ bs → b.parent = some p.name →
      ∃ o1 o2, ladderOrdered bs = o1 ++ p :: o2 ∧ b ∈ o1 := by
  intro b p hb hp hbp
  have hperm := ladderOrdered_perm bs hnodup hacyc
  have hpmem : p ∈ ladderOrdered bs := hperm.mem_iff.mpr hp
  obtain ⟨o1, o2, hsplit⟩ := List.append_of_mem hpmem
  have hcl := ladderState_ordering bs hnodup hacyc
  have hbc : b ∈ childrenOf bs p.name := by
    refine List.mem_filter.mpr ⟨hb, ?_⟩
    rw [hbp]
    simp
  have hbname : b.name ∈ o1.map (fun x => x.name) := hcl o1 p o2 hsplit b hbc
  obtain ⟨b', hb'o1, hb'name⟩ := List.mem_map.mp hbname
  have hb'bs : b' ∈ bs := by
    have hmem2 : b' ∈ ladderOrdered bs := by
      rw [hsplit]
      exact List.mem_append_left _ hb'o1
    exact hperm.mem_iff.mp hmem2
  have hbb : b' = b := List.inj_on_of_nodup_map hnodup hb'bs hb hb'name
  exact ⟨o1, o2, hsplit, hbb ▸ hb'o1⟩

theorem buildLadder_decomposition (status : StatusOutput) :
    buildLadder status
      = (ladderOrdered status.branches).map LadderItem.branchItem
        ++ (match (ladderRoots status.branches).head? with
            | some r =>
                (match r.parent with
                  | some p => if p == "" then [] else [LadderItem.baseItem p]
                  | none => [])
            | none => []) := by
  show buildLadderF (status.branches.length + 1) status = _
  unfold buildLadderF
  cases hh : (ladderRoots status.branches).head? with
  | none => simp [ladderOrdered]
  | some r =>
      cases hr : r.parent with
      | none => simp [hr, ladderOrdered]
      | some p =>
          by_cases hp : (p == "") = true
          · simp [hr, hp, ladderOrdered]
          · simp [hr, hp, ladderOrdered]

/-! # Claim theorems -/

/-- C1 (code bug in part_001): on the corrupt status whose parent pointers
form the cycle A ↔ B, `StackTreeProvider.buildLadder` terminates — its
visited-set guard makes the result stable for every recursion bound past
`branches.length + 1` — but the part_001 `StatusBarProvider.getStackPosition`
`while` loop has no visited guard and never finishes: it exhausts every
finite bound.  (The later `providers/statusBarProvider.ts` adds the guard.) -/
theorem c1_buildLadder_terminates_getStackPosition_diverges :
    (∀ fuel, buildLadderF (3 + fuel) cycStatus = buildLadder cycStatus)
    ∧ (∀ fuel, getStackPosition cycStatus cycBranchA fuel = none) := by
  constructor
  · intro fuel
    exact buildLadderF_stable cycStatus (3 + fuel)
      (by show (3 : Nat) ≤ 3 + fuel; omega)
  · intro fuel
    unfold getStackPosition
    rw [show cycStatus.branches.map (fun b => b.name) = ["A", "B"] from rfl,
      (posLoop_cyc_diverges fuel 1).1]
    rfl

/-- C5 (amended): a CLI failure whose derived message contains
"Sync already in progress" — and none of the patterns `parseError` matches
earlier ("rung init", "not initialized", "not inside a git repository") —
is classified as `SyncInProgress`, and `syncCommand` does not rethrow that
error but offers exactly the two choices Continue / Abort. -/
theorem c5_sync_in_progress_handling
    (cliPath : String) (e : ExecError) (choice : UserChoice)
    (h1 : containsStr e.msg "Sync already in progress" = true)
    (h2 : containsStr e.msg "rung init" = false)
    (h3 : containsStr e.msg "not initialized" = false)
    (h4 : containsStr e.msg "not inside a git repository" = false) :
    parseError cliPath e =
      createError .syncInProgress
        "A sync operation is already in progress. Use --continue or --abort." none
    ∧ (syncCommand (.error (.rung (parseError cliPath e))) choice).rethrown = none
    ∧ (syncCommand (.error (.rung (parseError cliPath e))) choice).offeredChoices
        = ["Continue", "Abort"] := by
  have hp : parseError cliPath e =
      createError .syncInProgress
        "A sync operation is already in progress. Use --continue or --abort." none := by
    unfold parseError
    simp [h1, h2, h3, h4]
  refine ⟨hp, ?_, ?_⟩ <;>
    simp [hp, syncCommand, isRungError, JsError.errType, createError]

/-- C5 witness: concrete instantiation of `c5_sync_in_progress_handling`. -/
theorem c5_sync_in_progress_handling_witness :
    parseError "rung" ⟨none, some "Sync already in progress", none⟩ =
      createError .syncInProgress
        "A sync operation is already in progress. Use --continue or --abort." none
    ∧ (syncCommand
        (.error (.rung (parseError "rung" ⟨none, some "Sync already in progress", none⟩)))
        UserChoice.first).rethrown = none
    ∧ (syncCommand
        (.error (.rung (parseError "rung" ⟨none, some "Sync already in progress", none⟩)))
        UserChoice.first).offeredChoices = ["Continue", "Abort"] :=
  c5_sync_in_progress_handling "rung" ⟨none, some "Sync already in progress", none⟩
    UserChoice.first (by decide) (by decide) (by decide) (by decide)

/-- C5 counterexample: a CLI failure whose message contains
"Sync already in progress" but also an earlier-matched pattern
("not initialized") is classified as `NotInitialized`, not
`SyncInProgress`, because `parseError` checks patterns in order. -/
theorem c5_counterexample :
    containsStr
      (ExecError.msg ⟨none, some "not initialized: Sync already in progress", none⟩)
      "Sync already in progress" = true
    ∧ (parseError "rung"
        ⟨none, some "not initialized: Sync already in progress", none⟩).type
        ≠ ErrorType.syncInProgress := by
  constructor
  · decide
  · decide

/-- C6: a `ConflictDetected` error makes `syncCommand` return normally
(offering resolve-then-continue or abort); every error that is neither
`ConflictDetected` nor `SyncInProgress` is rethrown unchanged. -/
theorem c6_conflict_is_pause_others_rethrown (choice : UserChoice) :
    (∀ msg det,
      (syncCommand (.error (.rung ⟨.conflictDetected, msg, det⟩)) choice).rethrown = none
      ∧ (syncCommand (.error (.rung ⟨.conflictDetected, msg, det⟩)) choice).offeredChoices
          = ["Continue after resolving", "Abort sync"])
    ∧ (∀ e : JsError, e.errType ≠ some ErrorType.conflictDetected →
        e.errType ≠ some ErrorType.syncInProgress →
        (syncCommand (.error e) choice).rethrown = some e) := by
  constructor
  · intro msg det
    constructor <;> simp [syncCommand, isRungError, JsError.errType]
  · intro e h1 h2
    cases e with
    | rung r =>
        simp only [JsError.errType, ne_eq, Option.some.injEq] at h1 h2
        simp [syncCommand, isRungError, JsError.errType, h1, h2]
    | other m => simp [syncCommand, isRungError]

/-- C6 witness: concrete instantiation of
`c6_conflict_is_pause_others_rethrown`. -/
theorem c6_conflict_is_pause_others_rethrown_witness :
    (syncCommand (.error (.rung ⟨.conflictDetected, "Conflicts detected", none⟩))
        UserChoice.first).rethrown = none
    ∧ (syncCommand (.error (.other "boom")) UserChoice.first).rethrown
        = some (.other "boom") :=
  ⟨((c6_conflict_is_pause_others_rethrown UserChoice.first).1 "Conflicts detected" none).1,
   (c6_conflict_is_pause_others_rethrown UserChoice.first).2 (.other "boom")
     (by decide) (by decide)⟩

/-- C9: `isInitialized` returns true exactly when `status()` succeeds,
false exactly on a `NotInitialized` RungError, and propagates any other
error unchanged. -/
theorem c9_isInitialized_classification (s : StatusOutput) (m : String)
    (d : Option String) :
    RungCli.isInitialized (.ok s) = .ok true
    ∧ RungCli.isInitialized (.error (.rung ⟨.notInitialized, m, d⟩)) = .ok false
    ∧ (∀ e : JsError, e.errType ≠ some ErrorType.notInitialized →
        RungCli.isInitialized (.error e) = .error e)
    ∧ (∀ r : Except JsError StatusOutput,
        (RungCli.isInitialized r = .ok true ↔ ∃ s2, r = .ok s2)) := by
  refine ⟨rfl, by simp [RungCli.isInitialized, isRungError, JsError.errType], ?_, ?_⟩
  · intro e h
    cases e with
    | rung r =>
        simp only [JsError.errType, ne_eq, Option.some.injEq] at h
        simp [RungCli.isInitialized, isRungError, JsError.errType, h]
    | other msg => simp [RungCli.isInitialized, isRungError]
  · intro r
    cases r with
    | ok s2 => simp [RungCli.isInitialized]
    | error e =>
        cases e with
        | rung r2 =>
            by_cases hr : r2.type = ErrorType.notInitialized <;>
              simp [RungCli.isInitialized, isRungError, JsError.errType, hr]
        | other msg => simp [RungCli.isInitialized, isRungError]

/-- C9 witness: concrete instantiation of `c9_isInitialized_classification`. -/
theorem c9_isInitialized_classification_witness :
    RungCli.isInitialized (.ok ⟨[], none⟩) = .ok true
    ∧ RungCli.isInitialized (.error (.rung ⟨.notInitialized, "not initialized", none⟩))
        = .ok false
    ∧ RungCli.isInitialized (Except.error (JsError.other "boom"))
        = .error (JsError.other "boom") :=
  ⟨(c9_isInitialized_classification ⟨[], none⟩ "not initialized" none).1,
   (c9_isInitialized_classification ⟨[], none⟩ "not initialized" none).2.1,
   (c9_isInitialized_classification ⟨[], none⟩ "not initialized" none).2.2.1
     (.other "boom") (by decide)⟩

/-- C10: `status()` throws `Unknown` with message
"Failed to parse status output" exactly on a JSON parse failure; on valid
JSON it returns precisely the parsed value with no schema validation, so a
syntactically valid JSON value such as `42` flows through even though it
does not conform to the declared `StatusOutput` shape. -/
theorem c10_status_no_validation (stdout : String) (j : Json) :
    RungCli.status stdout none =
      .error ⟨.unknown, "Failed to parse status output", some stdout⟩
    ∧ RungCli.status stdout (some j) = .ok j
    ∧ RungCli.status stdout (some (.num 42)) = .ok (.num 42)
    ∧ conformsStatusOutput (.num 42) = false :=
  ⟨rfl, rfl, rfl, by decide⟩

/-- C7 counterexample: the stdout shape documented for `rung status --json`
(externally-tagged `state`) is returned unvalidated by `status()` and does
not conform to the `StatusOutput` schema of types.ts. -/
theorem c7_counterexample :
    RungCli.status "docs-example" (some docsStatusJson) = .ok docsStatusJson
    ∧ conformsStatusOutput docsStatusJson = false :=
  ⟨rfl, by decide⟩

/-- C7 (amended): `status()` returns whatever JSON the CLI printed, with no
validation; the returned value conforms to the `StatusOutput` schema
(status tag among synced/diverged/conflict/detached, numeric
`commits_behind` when diverged) exactly for stdout values that serialize
the types.ts `StatusOutput` shape. -/
theorem c7_status_conformance (stdout : String) (s : StatusOutput) :
    RungCli.status stdout (some s.toJson) = .ok s.toJson
    ∧ conformsStatusOutput s.toJson = true :=
  ⟨rfl, conformsStatusOutput_toJson s⟩

/-- C2: `reparent(a, b)` fails with `CyclicDependency` if and only if `a`
is an ancestor of `b` (some number of parent-pointer steps from `b` lands
on `a`) in the pre-mutation graph — for every graph, including corrupt
cyclic ones, since the walk's visited set covers exactly the reachable
names. -/
theorem c2_reparent_cyclicDependency_iff (g : ParentGraph) (a b : String) :
    reparent g a b = Except.error StackError.cyclicDependency ↔
      ∃ k, parentIter g k b = some a := by
  constructor
  · intro h
    by_cases hmem : a ∈ (ancestorWalk g b).1
    · rcases walkVisit_mem_reach g (g.length + 1) [] b a hmem with hv | hr
      · simp at hv
      · exact hr
    · exfalso
      unfold reparent at h
      rw [if_neg hmem] at h
      by_cases hc : (ancestorWalk g b).2 <;> simp [hc] at h
  · rintro ⟨k, hk⟩
    have hmem := reach_mem_ancestorWalk g b a k hk
    unfold reparent
    rw [if_pos hmem]

/-- C3: after any partially-completed sync (a backup-creating `beginSync`
followed by any number of clean rewrite steps), `abort()` restores every
branch to exactly its pre-sync tip and deletes the SyncState; a second
`abort()` then fails with the NoBackupFound-style error (a no-op, never
destructive); and `abort` imposes no precondition — on every state it
either succeeds or returns that error without acting. -/
theorem c3_abort_restores (s0 : EngineState) (plan : List String)
    (newTips : List Nat) :
    (∃ s3, abort (runSteps (beginSync s0 plan) newTips) = .ok s3
      ∧ (∀ n, s3.tips n = s0.tips n)
      ∧ s3.syncState = none
      ∧ abort s3 = .error .noBackupFound)
    ∧ (∀ s : EngineState,
        abort s = .error .noBackupFound ∨ ∃ s2, abort s = .ok s2) := by
  constructor
  · obtain ⟨ss, hss, hbid, hrem, hbk, htips⟩ :=
      runSteps_inv s0.nextBackupId (beginSync s0 plan).backups plan s0.tips
        newTips (beginSync s0 plan)
        ⟨⟨s0.nextBackupId, [], plan, none⟩, rfl, rfl, fun x hx => hx⟩
        rfl (fun n _ => rfl)
    set s2 := runSteps (beginSync s0 plan) newTips with hs2
    have hbks : (beginSync s0 plan).backups
        = (s0.nextBackupId, plan.map (fun b => (b, s0.tips b))) :: s0.backups := rfl
    have hlook : lookupBackup s2 ss.backupId
        = some (plan.map (fun b => (b, s0.tips b))) := by
      unfold lookupBackup
      rw [hbk, hbks, hbid]
      simp
    have habort : abort s2 = .ok
        { s2 with
            tips := restoreTips s2.tips (plan.map (fun b => (b, s0.tips b))),
            backups := s2.backups.filter (fun p => !(p.1 == ss.backupId)),
            syncState := none } := by
      simp [abort, hss, hlook]
    refine ⟨_, habort, ?_, rfl, rfl⟩
    intro n
    show restoreTips s2.tips (plan.map (fun b => (b, s0.tips b))) n = s0.tips n
    rw [restoreTips_saved]
    by_cases hn : n ∈ plan
    · simp [hn]
    · simp [hn, htips n hn]
  · intro s
    cases h : s.syncState with
    | none => exact Or.inl (by simp [abort, h])
    | some ss =>
        refine Or.inr ⟨{ s with
            tips := restoreTips s.tips ((lookupBackup s ss.backupId).getD []),
            backups := s.backups.filter (fun p => !(p.1 == ss.backupId)),
            syncState := none }, ?_⟩
        simp [abort, h]

/-- C4: when a sync plan runs to completion — actions ordered bottom-up, so
a branch is rewritten only after its parent's rewrite (if any) — every
branch B of the plan ends with the current tip of B's parent as an ancestor
of B's current tip, and B's recorded `lastKnownParentTip` equals the
parent's current tip. -/
theorem c4_sync_postcondition :
    ∀ (plan : List String) (env : SyncEnv) (fresh0 : Nat),
      plan.Nodup →
      planResolvesOk env plan = true →
      planOrderOk env plan = true →
      ∀ n, n ∈ plan →
        ∃ bf pt, lookupBranch (execPlan env plan fresh0) n = some bf
          ∧ parentTip (execPlan env plan fresh0) bf = some pt
          ∧ pt <:+ bf.tip
          ∧ bf.lastKnownParentTip = some pt := by
  intro plan
  induction plan with
  | nil => intro env f _ _ _ n hn; simp at hn
  | cons n0 rest ih =>
      intro env fresh0 hnodup hres horder n hn
      have hstepeq : execPlan env (n0 :: rest) fresh0
          = execPlan (execAction env fresh0 n0) rest (fresh0 + 1) := rfl
      have hrescons : planResolvesOk env (n0 :: rest)
          = ((match lookupBranch env n0 with
              | some b =>
                  (match b.parent with
                    | some p => (lookupBranch env p).isSome
                    | none => true)
              | none => false) && planResolvesOk env rest) := rfl
      rw [hrescons, Bool.and_eq_true] at hres
      obtain ⟨hresHead, hresTail⟩ := hres
      have hordcons : planOrderOk env (n0 :: rest)
          = ((match parentOf env n0 with
              | some (some p) => !(decide (p ∈ n0 :: rest))
              | _ => true) && planOrderOk env rest) := rfl
      rw [hordcons, Bool.and_eq_true] at horder
      obtain ⟨hordHead, hordTail⟩ := horder
      cases hb : lookupBranch env n0 with
      | none => rw [hb] at hresHead; exact absurd hresHead (by simp)
      | some b0 =>
      rw [hb] at hresHead
      have hresHead2 : (match b0.parent with
          | some p => (lookupBranch env p).isSome
          | none => true) = true := hresHead
      have hpo : parentOf env n0 = some b0.parent := by
        unfold parentOf; rw [hb]; rfl
      rcases List.mem_cons.mp hn with rfl | hnrest
      · -- the head branch n (= n0) itself
        have hn0rest : n ∉ rest := (List.nodup_cons.mp hnodup).1
        have hbase : (execPlan env (n :: rest) fresh0).base = env.base := by
          rw [hstepeq, execPlan_base, execAction_base]
        cases hbp : b0.parent with
        | none =>
            have hpt0 : parentTip env b0 = some env.base := by
              unfold parentTip; rw [hbp]
            have hlookup1 :=
              lookupBranch_execAction_self env fresh0 n hb hpt0
            have hfinal : lookupBranch (execPlan env (n :: rest) fresh0) n
                = some { b0 with tip := rebaseOnto env.base fresh0, lastKnownParentTip := some env.base } := by
              rw [hstepeq,
                lookupBranch_execPlan_stable rest (execAction env fresh0 n)
                  (fresh0 + 1) n hn0rest, hlookup1]
            refine ⟨_, env.base, hfinal, ?_, ?_, rfl⟩
            · simp [parentTip, hbp, hbase]
            · exact List.suffix_cons fresh0 env.base
        | some p =>
            simp only [hpo, hbp] at hordHead
            have hpnotin : p ∉ n :: rest := by simpa using hordHead
            have hres3 : (lookupBranch env p).isSome = true := by
              rw [hbp] at hresHead2; exact hresHead2
            obtain ⟨c, hc⟩ := Option.isSome_iff_exists.mp hres3
            have hpt0 : parentTip env b0 = some c.tip := by
              have hx : parentTip env b0 = (lookupBranch env p).map (fun c2 => c2.tip) := by
                unfold parentTip; rw [hbp]
              rw [hx, hc]; rfl
            have hlookup1 :=
              lookupBranch_execAction_self env fresh0 n hb hpt0
            have hfinal : lookupBranch (execPlan env (n :: rest) fresh0) n
                = some { b0 with tip := rebaseOnto c.tip fresh0, lastKnownParentTip := some c.tip } := by
              rw [hstepeq,
                lookupBranch_execPlan_stable rest (execAction env fresh0 n)
                  (fresh0 + 1) n hn0rest, hlookup1]
            have hpn : p ≠ n := fun h => hpnotin (h ▸ List.mem_cons_self p rest)
            have hprest : p ∉ rest := fun h => hpnotin (List.mem_cons_of_mem n h)
            have hplookup : lookupBranch (execPlan env (n :: rest) fresh0) p
                = some c := by
              rw [hstepeq,
                lookupBranch_execPlan_stable rest (execAction env fresh0 n)
                  (fresh0 + 1) p hprest,
                lookupBranch_execAction_other env fresh0 n p hpn, hc]
            refine ⟨_, c.tip, hfinal, ?_, ?_, rfl⟩
            · simp [parentTip, hbp, hplookup]
            · exact List.suffix_cons fresh0 c.tip
      · -- a branch later in the plan: inductive hypothesis on the tail
        rw [hstepeq]
        refine ih (execAction env fresh0 n0) (fresh0 + 1)
          (List.nodup_cons.mp hnodup).2 ?_ ?_ n hnrest
        · rw [planResolvesOk_execAction]; exact hresTail
        · rw [planOrderOk_execAction]; exact hordTail

/-- C8 counterexample: the claim as stated fails on two acyclic inputs —
with duplicate branch names the ladder drops the second record (not "each
branch exactly once"), and a root whose parent is the non-null but
JavaScript-falsy empty string produces no base item. -/
theorem c8_counterexample :
    acyclicCheck dupStatus.branches = true
    ∧ ¬ (ladderOrdered dupStatus.branches).Perm dupStatus.branches
    ∧ acyclicCheck emptyParentStatus.branches = true
    ∧ (ladderRoots emptyParentStatus.branches).head?
        = some ⟨"X", some "", BranchState.synced, none, none⟩
    ∧ (⟨"X", some "", BranchState.synced, none, none⟩ : BranchInfo).parent ≠ none
    ∧ buildLadder emptyParentStatus
        = [LadderItem.branchItem ⟨"X", some "", BranchState.synced, none, none⟩] := by
  refine ⟨by decide, ?_, by decide, by decide, by decide, by decide⟩
  intro hperm
  have hlen := hperm.length_eq
  revert hlen
  decide

/-- C8 (amended): for every status input with distinct branch names and
acyclic parent pointers, buildLadder's branch ordering contains each input
branch exactly once, every branch whose parent is in the stack appears
strictly before that parent, and the items are that ordering followed by at
most one base item — present exactly when the first root branch's parent is
non-null and non-empty, naming that parent. -/
theorem c8_buildLadder_properties (status : StatusOutput)
    (hnodup : (status.branches.map (fun b => b.name)).Nodup)
    (hacyc : acyclicCheck status.branches = true) :
    (ladderOrdered status.branches).Perm status.branches
    ∧ (∀ b p, b ∈ status.branches → p ∈ status.branches →
        b.parent = some p.name →
        ∃ o1 o2, ladderOrdered status.branches = o1 ++ p :: o2 ∧ b ∈ o1)
    ∧ buildLadder status
        = (ladderOrdered status.branches).map LadderItem.branchItem
          ++ (match (ladderRoots status.branches).head? with
              | some r =>
                  (match r.parent with
                    | some p => if p == "" then [] else [LadderItem.baseItem p]
                    | none => [])
              | none => []) :=
  ⟨ladderOrdered_perm status.branches hnodup hacyc,
   ladderOrdered_child_before_parent status.branches hnodup hacyc,
   buildLadder_decomposition status⟩

/-- C8 witness: concrete instantiation of `c8_buildLadder_properties`. -/
theorem c8_buildLadder_properties_witness :
    (ladderOrdered c8DemoStatus.branches).Perm c8DemoStatus.branches
    ∧ (∃ o1 o2, ladderOrdered c8DemoStatus.branches
        = o1 ++ (⟨"feat-1", some "main", BranchState.synced, none, none⟩ : BranchInfo)
          :: o2
        ∧ (⟨"feat-2", some "feat-1", BranchState.diverged 2, some 42, some true⟩
            : BranchInfo) ∈ o1) :=
  ⟨(c8_buildLadder_properties c8DemoStatus (by decide) (by decide)).1,
   (c8_buildLadder_properties c8DemoStatus (by decide) (by decide)).2.1
     ⟨"feat-2", some "feat-1", BranchState.diverged 2, some 42, some true⟩
     ⟨"feat-1", some "main", BranchState.synced, none, none⟩
     (by decide) (by decide) rfl⟩

/-- C4 witness: concrete instantiation of `c4_sync_postcondition` on a
two-branch stack. -/
theorem c4_sync_postcondition_witness :
    ∃ bf pt, lookupBranch (execPlan c4DemoEnv ["A", "B"] 1) "B" = some bf
      ∧ parentTip (execPlan c4DemoEnv ["A", "B"] 1) bf = some pt
      ∧ pt <:+ bf.tip
      ∧ bf.lastKnownParentTip = some pt :=
  c4_sync_postcondition ["A", "B"] c4DemoEnv 1 (by decide) (by decide) (by decide)
    "B" (by decide)

end Rung
